import Mathlib

/-!
Verification development for the AI-Studio single-file web app
(`src/index.tsx`).  The definitions below are a shallow embedding of the
program's pure logic:

* `toBase64Units` embeds the `toBase64` utility (lines 20-32): UTF-8 byte
  expansion of a JavaScript string (modelled as its list of UTF-16 code
  units, which is what a JS string is) followed by `btoa`'s standard
  base64 alphabet, with the `catch` branch returning the empty string.
  `TextEncoder` is a platform API; it is embedded per the WHATWG encoding
  standard: well-formed surrogate pairs combine, lone surrogates become
  U+FFFD, and `btoa` fails exactly on char codes above 255.
* `mergeFiles` embeds the file-list merge in `handleSendMessage`
  (lines 126-135), `applyParsedBatch` adds the `setActiveFileId` effect.
* `syncToGithub` embeds the GitHub synchronisation loop (lines 147-196)
  against an explicit network environment and emits the issued requests.
* `previewBodyContent` embeds the `<body>` extraction of `previewDoc`
  (lines 205-206) with JavaScript regex semantics (leftmost match,
  greedy `[\s\S]*`).
* `extractFiles` embeds the response parser (lines 87-104) with the
  semantics of the fixed regex
  `/\[FILE:\s*([\w\.\/\-]+)\]\s*[\n\r]*(fence)(\w+)?\s*[\n\r]([\s\S]*?)(fence)/gi`
  resolved to its (deterministic) leftmost-match scanner, and of
  `String.prototype.replace` with a string pattern (first occurrence).

The base64/UTF-8 decoder functions are modelled from the spec: the
repository ships no decoder, and the spec's round-trip property compares
the program's encoder against the standard decoding (standard base64
decode followed by UTF-8 decode).  Case folding is modelled for ASCII
(`lowCode`), which is what the regex `i` flag canonicalises for the
characters these patterns use.
-/

/-- Code point of a character. -/
def chCode (c : Char) : Nat := c.toNat

/-- ASCII lower-casing on code points: models `String.prototype.toLowerCase`
and the regex `i` flag for the ASCII letters used by the app's patterns. -/
def lowCode (c : Char) : Nat :=
  if 65 ≤ c.toNat ∧ c.toNat ≤ 90 then c.toNat + 32 else c.toNat

/-- JavaScript `\s` (and `String.prototype.trim`'s WhiteSpace ∪ LineTerminator). -/
def jsSpaceB (c : Char) : Bool :=
  decide (c.toNat = 9 ∨ c.toNat = 10 ∨ c.toNat = 11 ∨ c.toNat = 12 ∨ c.toNat = 13 ∨
    c.toNat = 32 ∨ c.toNat = 160 ∨ c.toNat = 5760 ∨ (8192 ≤ c.toNat ∧ c.toNat ≤ 8202) ∨
    c.toNat = 8232 ∨ c.toNat = 8233 ∨ c.toNat = 8239 ∨ c.toNat = 8287 ∨
    c.toNat = 12288 ∨ c.toNat = 65279)

/-- JavaScript `\w`: ASCII letters, digits and underscore. -/
def wordCharB (c : Char) : Bool :=
  decide ((48 ≤ c.toNat ∧ c.toNat ≤ 57) ∨ (65 ≤ c.toNat ∧ c.toNat ≤ 90) ∨
    (97 ≤ c.toNat ∧ c.toNat ≤ 122) ∨ c.toNat = 95)

/-- The character class `[\w\.\/\-]` of the file-marker path. -/
def nameCharB (c : Char) : Bool :=
  wordCharB c || decide (c.toNat = 46 ∨ c.toNat = 47 ∨ c.toNat = 45)

/-- The character class `[\n\r]`. -/
def nlCharB (c : Char) : Bool := decide (c.toNat = 10 ∨ c.toNat = 13)

/-- `String.prototype.trim`. -/
def jsTrim (l : List Char) : List Char :=
  ((l.dropWhile jsSpaceB).reverse.dropWhile jsSpaceB).reverse

/-- The backquote character (code 96). -/
def bq : Char := Char.ofNat 96

/-- TextEncoder front end: UTF-16 code units to Unicode code points, lone
surrogates replaced by U+FFFD (65533), per the WHATWG encoding standard. -/
def utf16ToCodepoints : List Nat → List Nat
  | [] => []
  | u :: rest =>
    if 55296 ≤ u ∧ u ≤ 56319 then
      match rest with
      | v :: rest2 =>
        if 56320 ≤ v ∧ v ≤ 57343 then
          (65536 + (u - 55296) * 1024 + (v - 56320)) :: utf16ToCodepoints rest2
        else
          65533 :: utf16ToCodepoints (v :: rest2)
      | [] => [65533]
    else if 56320 ≤ u ∧ u ≤ 57343 then 65533 :: utf16ToCodepoints rest
    else u :: utf16ToCodepoints rest

/-- Code points back to UTF-16 code units (the decoding direction of the
round trip; astral code points split into a surrogate pair). -/
def codepointsToUtf16 : List Nat → List Nat
  | [] => []
  | c :: rest =>
    if c < 65536 then c :: codepointsToUtf16 rest
    else (55296 + (c - 65536) / 1024) :: (56320 + (c - 65536) % 1024) ::
      codepointsToUtf16 rest

/-- UTF-8 byte expansion of a code-point sequence (TextEncoder back end). -/
def utf8Encode : List Nat → List Nat
  | [] => []
  | c :: rest =>
    (if c < 128 then [c]
     else if c < 2048 then [192 + c / 64, 128 + c % 64]
     else if c < 65536 then [224 + c / 4096, 128 + c / 64 % 64, 128 + c % 64]
     else [240 + c / 262144, 128 + c / 4096 % 64, 128 + c / 64 % 64, 128 + c % 64])
    ++ utf8Encode rest

/-- Continuation-byte test for the UTF-8 decoder. -/
def isCont (b : Nat) : Bool := decide (128 ≤ b ∧ b < 192)

/-- Standard UTF-8 decoding, one step per emitted code point (modelled from
the spec: the decoding half of the round-trip property; malformed input
yields U+FFFD).  Fuel counts emitted code points; each step consumes at
least one byte, so the byte count always suffices. -/
def utf8DecGo : Nat → List Nat → List Nat
  | 0, _ => []
  | _ + 1, [] => []
  | fuel + 1, b :: rest =>
    if b < 128 then b :: utf8DecGo fuel rest
    else if b < 192 then 65533 :: utf8DecGo fuel rest
    else if b < 224 then
      if 1 ≤ rest.length ∧ isCont (rest.getD 0 0) = true then
        ((b - 192) * 64 + (rest.getD 0 0 - 128)) :: utf8DecGo fuel (rest.drop 1)
      else 65533 :: utf8DecGo fuel rest
    else if b < 240 then
      if 2 ≤ rest.length ∧ isCont (rest.getD 0 0) = true ∧ isCont (rest.getD 1 0) = true then
        ((b - 224) * 4096 + (rest.getD 0 0 - 128) * 64 + (rest.getD 1 0 - 128)) ::
          utf8DecGo fuel (rest.drop 2)
      else 65533 :: utf8DecGo fuel rest
    else
      if 3 ≤ rest.length ∧ isCont (rest.getD 0 0) = true ∧ isCont (rest.getD 1 0) = true ∧
          isCont (rest.getD 2 0) = true then
        ((b - 240) * 262144 + (rest.getD 0 0 - 128) * 4096 + (rest.getD 1 0 - 128) * 64 +
          (rest.getD 2 0 - 128)) :: utf8DecGo fuel (rest.drop 3)
      else 65533 :: utf8DecGo fuel rest

/-- Standard UTF-8 decoding of a byte list. -/
def utf8Decode (bytes : List Nat) : List Nat := utf8DecGo bytes.length bytes

/-- The standard base64 alphabet, in order. -/
def b64chars : List Char :=
  "ABCDEFGHIJKLMNOPQRSTUVWXYZabcdefghijklmnopqrstuvwxyz0123456789+/".data

/-- Symbol for a sextet value. -/
def b64chr (n : Nat) : Char := b64chars.getD n 'A'

/-- Position of a symbol in the alphabet (0 for foreign symbols). -/
def b64valGo : List Char → Char → Nat
  | [], _ => 0
  | a :: r, c => if a = c then 0 else b64valGo r c + 1

/-- Sextet value of a base64 symbol. -/
def b64val (c : Char) : Nat := b64valGo b64chars c

/-- `btoa`'s byte-level base64 encoding with `=` padding. -/
def b64encBytes : List Nat → List Char
  | [] => []
  | [b1] => [b64chr (b1 / 4), b64chr (b1 % 4 * 16), '=', '=']
  | [b1, b2] => [b64chr (b1 / 4), b64chr (b1 % 4 * 16 + b2 / 16), b64chr (b2 % 16 * 4), '=']
  | b1 :: b2 :: b3 :: rest =>
    b64chr (b1 / 4) :: b64chr (b1 % 4 * 16 + b2 / 16) ::
    b64chr (b2 % 16 * 4 + b3 / 64) :: b64chr (b3 % 64) :: b64encBytes rest

/-- `btoa` itself: fails (raises `InvalidCharacterError`) exactly when some
char code of its argument exceeds 255, else encodes the bytes. -/
def btoaM (bytes : List Nat) : Option (List Char) :=
  if bytes.all (fun b => decide (b < 256)) then some (b64encBytes bytes) else none

/-- Standard base64 decoding (modelled from the spec: the decoding half of
the round-trip property). -/
def atobDec : List Char → List Nat
  | c1 :: c2 :: c3 :: c4 :: rest =>
    if c3 = '=' then [b64val c1 * 4 + b64val c2 / 16]
    else if c4 = '=' then
      [b64val c1 * 4 + b64val c2 / 16, b64val c2 % 16 * 16 + b64val c3 / 4]
    else
      (b64val c1 * 4 + b64val c2 / 16) ::
      (b64val c2 % 16 * 16 + b64val c3 / 4) ::
      (b64val c3 % 4 * 64 + b64val c4) :: atobDec rest
  | _ => []

/-- `toBase64` (src/index.tsx lines 20-32) on a JS string given as its UTF-16
code units: UTF-8 byte expansion, then `btoa`; the `catch` branch maps any
failure of the steps to the empty string. -/
def toBase64Units (units : List Nat) : List Char :=
  match btoaM (utf8Encode (utf16ToCodepoints units)) with
  | some s => s
  | none => []

/-- The spec's transport decoding: standard base64 decode, then UTF-8
decode, then back to UTF-16 code units. -/
def decodeUnits (chars : List Char) : List Nat :=
  codepointsToUtf16 (utf8Decode (atobDec chars))

/-- Well-formed UTF-16: every code unit is a scalar value or part of a
correctly ordered surrogate pair. -/
def wfUtf16 : List Nat → Bool
  | [] => true
  | u :: rest =>
    if u < 55296 ∨ (57344 ≤ u ∧ u < 65536) then wfUtf16 rest
    else if 55296 ≤ u ∧ u ≤ 56319 then
      match rest with
      | v :: rest2 => decide (56320 ≤ v ∧ v ≤ 57343) && wfUtf16 rest2
      | [] => false
    else false

/-- UTF-16 code units of a Lean string (Lean chars are scalar values). -/
def strUnits (s : String) : List Nat := codepointsToUtf16 (s.data.map chCode)

/-- One generated artifact of the working set (src/index.tsx lines 6-11). -/
structure ProjectFile where
  id : String
  name : String
  language : String
  content : String
deriving DecidableEq

instance : Inhabited ProjectFile := ⟨⟨"", "", "", ""⟩⟩

/-- `name.toLowerCase()` as the merge's comparison key. -/
def lowerKey (s : String) : List Nat := s.data.map lowCode

/-- `updated.findIndex(f => f.name.toLowerCase() === nf.name.toLowerCase())`. -/
def findNameIdx (key : List Nat) : List ProjectFile → Option Nat
  | [] => none
  | f :: rest =>
    if lowerKey f.name = key then some 0 else (findNameIdx key rest).map (· + 1)

/-- `updated[idx].content = nf.content`: replace only the `content` field of
the entry at the given position. -/
def setContentAt : List ProjectFile → Nat → String → List ProjectFile
  | [], _, _ => []
  | f :: rest, 0, c => { f with content := c } :: rest
  | f :: rest, n + 1, c => f :: setContentAt rest n c

/-- One step of the merge loop body (src/index.tsx lines 129-133). -/
def mergeOne (acc : List ProjectFile) (nf : ProjectFile) : List ProjectFile :=
  match findNameIdx (lowerKey nf.name) acc with
  | some i => setContentAt acc i nf.content
  | none => acc ++ [nf]

/-- The file-list merge (src/index.tsx lines 127-135): fold the extracted
batch, in extraction order, into the working set. -/
def mergeFiles (prev batch : List ProjectFile) : List ProjectFile :=
  batch.foldl mergeOne prev

/-- No two working-set entries share a case-insensitive name. -/
def noDupKeys (l : List ProjectFile) : Prop :=
  (l.map fun f => lowerKey f.name).Nodup

/-- The `handleSendMessage` state update after a parse (src/index.tsx lines
126-137): merge a non-empty batch and point `activeFileId` at the batch's
first file's freshly generated id; an empty batch changes nothing. -/
def applyParsedBatch (prev : List ProjectFile) (activeId : Option String)
    (batch : List ProjectFile) : List ProjectFile × Option String :=
  match batch with
  | [] => (prev, activeId)
  | nf0 :: _ => (mergeFiles prev batch, some nf0.id)

/-- Outcome of one repository lookup (`fetch` GET): the request threw, or
returned non-ok, or returned ok with the JSON's optional `sha` field. -/
inductive LookupResp where
  | exn : LookupResp
  | notOk : LookupResp
  | ok : Option String → LookupResp
deriving DecidableEq

/-- Outcome of one write (`fetch` PUT): ok flag and the error JSON's
optional `message` field. -/
structure PushResp where
  ok : Bool
  message : Option String
deriving DecidableEq

/-- The network, as a deterministic oracle giving the i-th file's lookup and
write responses for one sync run. -/
structure SyncEnv where
  lookupResp : Nat → LookupResp
  pushResp : Nat → PushResp

/-- Body of a write request (src/index.tsx lines 178-182). -/
structure PushBody where
  message : String
  content : String
  sha : Option String
deriving DecidableEq

/-- A network request issued by the synchroniser, tagged with the index of
the file it belongs to. -/
inductive Req where
  | lookup : Nat → String → Req
  | push : Nat → String → PushBody → Req
deriving DecidableEq

/-- Observable outcome of a sync invocation. -/
inductive SyncResult where
  | settingsPrompt : SyncResult
  | error : String → SyncResult
  | success : SyncResult
deriving DecidableEq

/-- JS truthiness fallback `x || undefined` for an optional string field. -/
def jsOrNone (s : Option String) : Option String :=
  match s with
  | some s => if s = "" then none else some s
  | none => none

/-- JS truthiness fallback `x || fb` selecting an error message. -/
def jsOrElse (m : Option String) (fb : String) : String :=
  match m with
  | some s => if s = "" then fb else s
  | none => fb

/-- The `sha` captured from a lookup (`null` unless the response was ok). -/
def shaOf : LookupResp → Option String
  | LookupResp.ok s => s
  | _ => none

/-- `https://api.github.com/repos/${repoName}/contents/${file.name}`. -/
def urlOf (repo : String) (f : ProjectFile) : String :=
  "https://api.github.com/repos/" ++ repo ++ "/contents/" ++ f.name

/-- The JSON body of the i-th write (src/index.tsx lines 178-182). -/
def mkPushBody (f : ProjectFile) (sha : Option String) : PushBody :=
  { message := "Update via AI Studio: " ++ f.name
  , content := String.mk (toBase64Units (strUnits f.content))
  , sha := jsOrNone sha }

/-- The sequential per-file loop (src/index.tsx lines 157-189): for each
file, a lookup whose failure is swallowed, then a write; a non-ok write
throws with the remote message or the `Gagal push` fallback. -/
def syncLoop (env : SyncEnv) (repo : String) : Nat → List ProjectFile → SyncResult × List Req
  | _, [] => (SyncResult.success, [])
  | i, f :: rest =>
    let url := urlOf repo f
    let body := mkPushBody f (shaOf (env.lookupResp i))
    let resp := env.pushResp i
    if resp.ok then
      let next := syncLoop env repo (i + 1) rest
      (next.1, Req.lookup i url :: Req.push i url body :: next.2)
    else
      (SyncResult.error (jsOrElse resp.message ("Gagal push " ++ f.name)),
       [Req.lookup i url, Req.push i url body])

/-- `syncToGithub` (src/index.tsx lines 147-196): empty credentials route to
the settings prompt before any request; an empty working set throws the
`Belum ada file untuk dikirim.` error; otherwise run the loop. -/
def syncToGithub (token repo : String) (files : List ProjectFile)
    (env : SyncEnv) : SyncResult × List Req :=
  if token = "" ∨ repo = "" then (SyncResult.settingsPrompt, [])
  else if files = [] then (SyncResult.error ("Belum ada file untuk dikirim."), [])
  else syncLoop env repo 0 files

/-- The request pair the loop issues for the i-th file. -/
def pairReqs (env : SyncEnv) (repo : String) (i : Nat) (f : ProjectFile) : List Req :=
  [Req.lookup i (urlOf repo f),
   Req.push i (urlOf repo f) (mkPushBody f (shaOf (env.lookupResp i)))]

/-- The full trace of a run that processes files `0..k` and stops. -/
def traceUpTo (env : SyncEnv) (repo : String) : Nat → List ProjectFile → Nat → List Req
  | _, [], _ => []
  | i0, f :: _, 0 => pairReqs env repo i0 f
  | i0, f :: rest, k + 1 => pairReqs env repo i0 f ++ traceUpTo env repo (i0 + 1) rest k

/-- Does a request belong to file index i and is it a write? -/
def reqIsPush (i : Nat) : Req → Bool
  | Req.push j _ _ => j == i
  | _ => false

/-- File index of a request. -/
def reqIdx : Req → Nat
  | Req.lookup j _ => j
  | Req.push j _ _ => j

/-- Case-insensitive test for `</body>` at the head of the text (the regex
literal `<\/body>` under the `i` flag). -/
def isCloseAt (l : List Char) : Bool :=
  decide (((l.take 7).map lowCode) = [60, 47, 98, 111, 100, 121, 62])

/-- Does the text contain a closing body tag anywhere? -/
def hasClose : List Char → Bool
  | [] => false
  | c :: r => isCloseAt (c :: r) || hasClose r

/-- Split at the LAST closing body tag: greedy `[\s\S]*` captures everything
before the last `</body>`; returns that capture and the text after the tag. -/
def splitLastClose : List Char → Option (List Char × List Char)
  | [] => none
  | c :: rest =>
    match splitLastClose rest with
    | some (a, b) => some (c :: a, b)
    | none => if isCloseAt (c :: rest) then some ([], (c :: rest).drop 7) else none

/-- Try `<body[^>]*>([\s\S]*)<\/body>` anchored at the head of the text:
open tag (case-insensitive `body`, then the greedy run of non-`>` chars,
then `>`), then the greedy capture up to the last closing tag. -/
def bodyMatchAt (l : List Char) : Option (List Char) :=
  match l with
  | [] => none
  | c :: r =>
    if c = '<' ∧ ((r.take 4).map lowCode) = [98, 111, 100, 121] then
      let r2 := r.drop 4
      let r3 := r2.dropWhile (fun x => decide (x ≠ '>'))
      match r3 with
      | g :: r4 =>
        if g = '>' then
          match splitLastClose r4 with
          | some (cap, _) => some cap
          | none => none
        else none
      | [] => none
    else none

/-- Leftmost match of the body regex: try each start position in order, as
the JS engine does. -/
def bodyMatchScan : List Char → Option (List Char)
  | [] => none
  | c :: rest =>
    match bodyMatchAt (c :: rest) with
    | some cap => some cap
    | none => bodyMatchScan rest

/-- The body substring used by `previewDoc` (src/index.tsx lines 205-206):
the regex capture if the pattern matches, else the whole HTML content. -/
def previewBodyContent (content : List Char) : List Char :=
  (bodyMatchScan content).getD content

/-- Consume a pattern of lower-cased codes case-insensitively from the head
of the text (the regex `i` flag on a literal word). -/
def matchCI : List Nat → List Char → Option (List Char)
  | [], l => some l
  | _, [] => none
  | p :: ps, c :: cs => if lowCode c = p then matchCI ps cs else none

/-- The codes of `file`, lower-cased. -/
def fileWord : List Nat := [102, 105, 108, 101]

/-- Is a triple backquote at the head of the text? -/
def fenceHead (l : List Char) : Bool := decide (l.take 3 = [bq, bq, bq])

/-- Split at the FIRST triple backquote (the non-greedy `([\s\S]*?)` body
followed by the closing fence): capture before it, text after it. -/
def splitFence : List Char → Option (List Char × List Char)
  | [] => none
  | a :: rest =>
    if fenceHead (a :: rest) then some ([], rest.drop 2)
    else
      match splitFence rest with
      | some (pre, post) => some (a :: pre, post)
      | none => none

/-- Split a whitespace run at its LAST `[\n\r]` character (the greedy
`\s*` backtracking into the required `[\n\r]`): consumed part including
that newline, and the remainder after it; `none` when no newline occurs. -/
def splitLastNL : List Char → Option (List Char × List Char)
  | [] => none
  | c :: rest =>
    match splitLastNL rest with
    | some (a, b) => some (c :: a, b)
    | none => if nlCharB c then some ([c], rest) else none

/-- Attempt the file-marker regex at the head of the text.  Returns
`(path capture, language capture, body capture, rest of the text)`.
Every quantifier of the pattern resolves deterministically (the adjacent
character classes are disjoint), so this scanner is the regex's
leftmost-match semantics at a fixed start position. -/
def matchAt (l : List Char) : Option (List Char × List Char × List Char × List Char) :=
  match l with
  | [] => none
  | c0 :: r1 =>
    if c0 = '[' then
      match matchCI fileWord r1 with
      | none => none
      | some r2 =>
        match r2 with
        | [] => none
        | c1 :: r3 =>
          if c1 = ':' then
            let r4 := r3.dropWhile jsSpaceB
            let nm := r4.takeWhile nameCharB
            let r5 := r4.dropWhile nameCharB
            if nm = [] then none
            else
              match r5 with
              | [] => none
              | c2 :: r6 =>
                if c2 = ']' then
                  let r7 := r6.dropWhile jsSpaceB
                  if fenceHead r7 then
                    let r8 := r7.drop 3
                    let lang := r8.takeWhile wordCharB
                    let r9 := r8.dropWhile wordCharB
                    let w := r9.takeWhile jsSpaceB
                    let r10 := r9.dropWhile jsSpaceB
                    match splitLastNL w with
                    | none => none
                    | some (_, w2) =>
                      match splitFence (w2 ++ r10) with
                      | none => none
                      | some (bd, rest) => some (nm, lang, bd, rest)
                  else none
                else none
          else none
    else none

/-- One match of the global scan: the full matched span `m0` (the regex's
`m[0]`) plus the three captures. -/
structure RawMatch where
  m0 : List Char
  name : List Char
  lang : List Char
  body : List Char
deriving DecidableEq

/-- The global scan (`matchAll`): try each start position left to right and
continue after each non-overlapping match.  Fuel counts positions; the
caller supplies the input length, which always suffices because every
match consumes at least one character. -/
def scanGo : Nat → List Char → List RawMatch
  | 0, _ => []
  | _, [] => []
  | fuel + 1, c :: rest =>
    match matchAt (c :: rest) with
    | some (nm, lang, bd, r) =>
      { m0 := (c :: rest).take ((c :: rest).length - r.length)
      , name := nm, lang := lang, body := bd } :: scanGo fuel r
    | none => scanGo fuel rest

/-- `Array.from(text.matchAll(regex))`. -/
def scanAll (text : List Char) : List RawMatch := scanGo text.length text

/-- The inline notice substituted for a matched span
(src/index.tsx line 100), using the raw path capture `m[1]`. -/
def noticeFor (name : List Char) : List Char :=
  ("\n\n> 📁 **File Updated: `").data ++ name ++ ("`**\n").data

/-- Does the pattern start the text? -/
def startsWithL : List Char → List Char → Bool
  | [], _ => true
  | _ :: _, [] => false
  | p :: ps, c :: cs => p == c && startsWithL ps cs

/-- `String.prototype.replace` with a string pattern: replace the first
occurrence only. -/
def replaceFirst (s pat rep : List Char) : List Char :=
  match s with
  | [] => if pat = [] then rep else []
  | c :: rest =>
    if startsWithL pat (c :: rest) then rep ++ (c :: rest).drop pat.length
    else c :: replaceFirst rest pat rep

/-- Does the haystack contain the needle as a contiguous run? -/
def containsSeq : List Char → List Char → Bool
  | hay, sub =>
    startsWithL sub hay ||
      match hay with
      | [] => false
      | _ :: t => containsSeq t sub

/-- Result of the response parser. -/
structure Extraction where
  newFiles : List ProjectFile
  cleanText : List Char
deriving DecidableEq

/-- The default language tag. -/
def txtWord : List Char := "text".data

/-- The ProjectFile built for the k-th match (src/index.tsx lines 94-99);
`idGen` supplies the `Math.random()`-based fresh identifiers. -/
def mkFileOf (idGen : Nat → String) (k : Nat) (m : RawMatch) : ProjectFile :=
  { id := idGen k
  , name := String.mk (jsTrim m.name)
  , language := String.mk (jsTrim (if m.lang = [] then txtWord else m.lang))
  , content := String.mk (jsTrim m.body) }

/-- `extractFiles` (src/index.tsx lines 87-104): scan all matches, build the
files in source order, and fold the per-match first-occurrence replacement
over the text. -/
def extractFiles (idGen : Nat → String) (text : List Char) : Extraction :=
  let ms := scanAll text
  { newFiles := ms.enum.map fun p => mkFileOf idGen p.1 p.2
  , cleanText := ms.foldl (fun acc m => replaceFirst acc m.m0 (noticeFor m.name)) text }

/-- The suffix of a text after its last `[\n\r]` character (the whole text
when none occurs). -/
def afterLastNL (l : List Char) : List Char :=
  match splitLastNL l with
  | some (_, b) => b
  | none => l

/-- A structured well-formed file block: marker keyword (in any case),
whitespace runs, path, language tag and fenced body. -/
structure Block where
  kw : List Char
  ws1 : List Char
  name : List Char
  ws2 : List Char
  lang : List Char
  body : List Char

/-- The concrete text of a block:
`[<kw>:<ws1><name>]<ws2>(fence)<lang>\n<body>(fence)`. -/
def Block.render (b : Block) : List Char :=
  '[' :: (b.kw ++ ':' :: (b.ws1 ++ b.name ++ ']' :: (b.ws2 ++
    bq :: bq :: bq :: (b.lang ++ '\n' :: (b.body ++ [bq, bq, bq])))))

/-- Well-formedness of a block: the keyword spells `file` up to case, the
whitespace runs are whitespace, the path is a non-empty run of path
characters, the tag is a run of word characters, and the body's first
triple backquote is the closing fence itself. -/
def Block.Wf (b : Block) : Prop :=
  b.kw.map lowCode = fileWord ∧
  (∀ c ∈ b.ws1, jsSpaceB c = true) ∧
  b.name ≠ [] ∧ (∀ c ∈ b.name, nameCharB c = true) ∧
  (∀ c ∈ b.ws2, jsSpaceB c = true) ∧
  (∀ c ∈ b.lang, wordCharB c = true) ∧
  splitFence (b.body ++ [bq, bq, bq]) = some (b.body, [])

/-- Interleave blocks with following prose segments. -/
def renderSegs : List (Block × List Char) → List Char
  | [] => []
  | (b, p) :: rest => b.render ++ p ++ renderSegs rest

/-- A parser input: leading prose, then blocks each followed by prose. -/
def renderInput (p0 : List Char) (segs : List (Block × List Char)) : List Char :=
  p0 ++ renderSegs segs

/-- The body capture the regex produces for a block: greedy `\s*` eats the
body's leading whitespace up to its last newline (the capture is
trim-equal to the block's body). -/
def bodyTailOf (b : Block) : List Char :=
  afterLastNL (b.body.takeWhile jsSpaceB) ++ b.body.dropWhile jsSpaceB

/-- The RawMatch a well-formed block produces. -/
def rawMatchOf (b : Block) : RawMatch :=
  { m0 := b.render, name := b.name, lang := b.lang, body := bodyTailOf b }

/-- The expected ProjectFile for the k-th block. -/
def expectedFile (idGen : Nat → String) (k : Nat) (b : Block) : ProjectFile :=
  { id := idGen k
  , name := String.mk b.name
  , language := String.mk (if b.lang = [] then txtWord else b.lang)
  , content := String.mk (jsTrim b.body) }

/-- The cleaned text the parser leaves behind for the blocks and their
following prose. -/
def cleanedSegs : List (Block × List Char) → List Char
  | [] => []
  | (b, p) :: rest => noticeFor b.name ++ p ++ cleanedSegs rest

/-! General list helpers used throughout the development. -/

theorem takeWhile_append_all {p : Char → Bool} {a : List Char} (t : List Char)
    (h : ∀ c ∈ a, p c = true) :
    List.takeWhile p (a ++ t) = a ++ List.takeWhile p t := by
  induction a with
  | nil => simp
  | cons x xs ih =>
    have hx := h x (by simp)
    simp only [List.cons_append, List.takeWhile_cons, hx]
    simp [ih fun c hc => h c (by simp [hc])]

theorem dropWhile_append_all {p : Char → Bool} {a : List Char} (t : List Char)
    (h : ∀ c ∈ a, p c = true) :
    List.dropWhile p (a ++ t) = List.dropWhile p t := by
  induction a with
  | nil => simp
  | cons x xs ih =>
    have hx := h x (by simp)
    simp only [List.cons_append, List.dropWhile_cons, hx]
    simp [ih fun c hc => h c (by simp [hc])]

theorem takeWhile_cons_neg {p : Char → Bool} {x : Char} (t : List Char)
    (h : p x = false) : List.takeWhile p (x :: t) = [] := by
  simp [List.takeWhile_cons, h]

theorem dropWhile_cons_neg {p : Char → Bool} {x : Char} (t : List Char)
    (h : p x = false) : List.dropWhile p (x :: t) = x :: t := by
  simp [List.dropWhile_cons, h]

/-! Lemmas about the text-encoding pipeline (claims C3 and C10). -/

theorem wfUtf16_cons (u : Nat) (rest : List Nat) :
    wfUtf16 (u :: rest) =
      if u < 55296 ∨ (57344 ≤ u ∧ u < 65536) then wfUtf16 rest
      else if 55296 ≤ u ∧ u ≤ 56319 then
        match rest with
        | v :: rest2 => decide (56320 ≤ v ∧ v ≤ 57343) && wfUtf16 rest2
        | [] => false
      else false := by
  cases rest <;> rfl

theorem utf16ToCodepoints_cons (u : Nat) (rest : List Nat) :
    utf16ToCodepoints (u :: rest) =
      if 55296 ≤ u ∧ u ≤ 56319 then
        match rest with
        | v :: rest2 =>
          if 56320 ≤ v ∧ v ≤ 57343 then
            (65536 + (u - 55296) * 1024 + (v - 56320)) :: utf16ToCodepoints rest2
          else 65533 :: utf16ToCodepoints (v :: rest2)
        | [] => [65533]
      else if 56320 ≤ u ∧ u ≤ 57343 then 65533 :: utf16ToCodepoints rest
      else u :: utf16ToCodepoints rest := by
  cases rest <;> rfl

theorem utf16_roundtrip : ∀ units : List Nat, (∀ u ∈ units, u < 65536) →
    wfUtf16 units = true →
    codepointsToUtf16 (utf16ToCodepoints units) = units := by
  intro units
  induction units using utf16ToCodepoints.induct with
  | case1 => intro _ _; simp [utf16ToCodepoints, codepointsToUtf16]
  | case2 u hu v rest2 hv ih =>
    intro hb hwf
    have hwf2 : wfUtf16 rest2 = true := by
      simp only [wfUtf16, if_neg (show ¬(u < 55296 ∨ (57344 ≤ u ∧ u < 65536)) by omega),
        if_pos hu, Bool.and_eq_true] at hwf
      exact hwf.2
    have hrec := ih (fun x hx => hb x (by simp [hx])) hwf2
    have hstep : utf16ToCodepoints (u :: v :: rest2) =
        (65536 + (u - 55296) * 1024 + (v - 56320)) :: utf16ToCodepoints rest2 := by
      simp only [utf16ToCodepoints, if_pos hu, if_pos hv]
    rw [hstep]
    simp only [codepointsToUtf16, if_neg (show ¬(65536 + (u - 55296) * 1024 + (v - 56320) < 65536) by omega)]
    rw [hrec]
    have e1 : 55296 + ((65536 + (u - 55296) * 1024 + (v - 56320)) - 65536) / 1024 = u := by
      omega
    have e2 : 56320 + ((65536 + (u - 55296) * 1024 + (v - 56320)) - 65536) % 1024 = v := by
      omega
    rw [e1, e2]
  | case3 u hu v rest2 hv ih =>
    intro hb hwf
    exfalso
    simp only [wfUtf16, if_neg (show ¬(u < 55296 ∨ (57344 ≤ u ∧ u < 65536)) by omega),
      if_pos hu, Bool.and_eq_true, decide_eq_true_eq] at hwf
    omega
  | case4 u hu =>
    intro hb hwf
    exfalso
    simp only [wfUtf16, if_neg (show ¬(u < 55296 ∨ (57344 ≤ u ∧ u < 65536)) by omega),
      if_pos hu] at hwf
    exact Bool.false_ne_true hwf
  | case5 u rest hu hl ih =>
    intro hb hwf
    exfalso
    rw [wfUtf16_cons, if_neg (show ¬(u < 55296 ∨ (57344 ≤ u ∧ u < 65536)) by omega),
      if_neg hu] at hwf
    exact Bool.false_ne_true hwf
  | case6 u rest hu hl ih =>
    intro hb hwf
    have hwf2 : wfUtf16 rest = true := by
      rw [wfUtf16_cons,
        if_pos (show u < 55296 ∨ (57344 ≤ u ∧ u < 65536) by have := hb u (by simp); omega)] at hwf
      exact hwf
    have hrec := ih (fun x hx => hb x (by simp [hx])) hwf2
    rw [utf16ToCodepoints_cons, if_neg hu, if_neg hl]
    simp only [codepointsToUtf16, if_pos (hb u (by simp))]
    rw [hrec]

theorem utf16_cp_bound : ∀ units : List Nat, (∀ u ∈ units, u < 65536) →
    ∀ c ∈ utf16ToCodepoints units, c < 1114112 := by
  intro units
  induction units using utf16ToCodepoints.induct with
  | case1 => intro _ c hc; simp [utf16ToCodepoints] at hc
  | case2 u hu v rest2 hv ih =>
    intro hb c hc
    have hstep : utf16ToCodepoints (u :: v :: rest2) =
        (65536 + (u - 55296) * 1024 + (v - 56320)) :: utf16ToCodepoints rest2 := by
      simp only [utf16ToCodepoints, if_pos hu, if_pos hv]
    rw [hstep] at hc
    rcases List.mem_cons.mp hc with h | h
    · omega
    · exact ih (fun x hx => hb x (by simp [hx])) c h
  | case3 u hu v rest2 hv ih =>
    intro hb c hc
    have hstep : utf16ToCodepoints (u :: v :: rest2) =
        65533 :: utf16ToCodepoints (v :: rest2) := by
      simp only [utf16ToCodepoints, if_pos hu, if_neg hv]
    rw [hstep] at hc
    rcases List.mem_cons.mp hc with h | h
    · omega
    · exact ih (fun x hx => hb x (by simp [hx])) c h
  | case4 u hu =>
    intro hb c hc
    have hstep : utf16ToCodepoints [u] = [65533] := by
      simp only [utf16ToCodepoints, if_pos hu]
    rw [hstep] at hc
    simp at hc
    omega
  | case5 u rest hu hl ih =>
    intro hb c hc
    rw [utf16ToCodepoints_cons, if_neg hu, if_pos hl] at hc
    rcases List.mem_cons.mp hc with h | h
    · omega
    · exact ih (fun x hx => hb x (by simp [hx])) c h
  | case6 u rest hu hl ih =>
    intro hb c hc
    rw [utf16ToCodepoints_cons, if_neg hu, if_neg hl] at hc
    rcases List.mem_cons.mp hc with h | h
    · have := hb u (by simp)
      omega
    · exact ih (fun x hx => hb x (by simp [hx])) c h

theorem utf8_bytes_bound : ∀ cps : List Nat, (∀ c ∈ cps, c < 1114112) →
    ∀ b ∈ utf8Encode cps, b < 256 := by
  intro cps
  induction cps with
  | nil => intro _ b hb; simp [utf8Encode] at hb
  | cons c rest ih =>
    intro hc b hb
    have hcbound := hc c (by simp)
    simp only [utf8Encode, List.mem_append] at hb
    rcases hb with h | h
    · split at h <;> try (simp at h; omega)
      split at h <;> try (simp at h; omega)
      split at h <;> (simp at h; omega)
    · exact ih (fun x hx => hc x (by simp [hx])) b h

theorem b64val_b64chr : ∀ s : Nat, s < 64 → b64val (b64chr s) = s := by decide

theorem b64chr_ne_eq : ∀ s : Nat, s < 64 → b64chr s ≠ '=' := by decide

theorem atobDec_cons (c1 c2 c3 c4 : Char) (rest : List Char) :
    atobDec (c1 :: c2 :: c3 :: c4 :: rest) =
      (if c3 = '=' then [b64val c1 * 4 + b64val c2 / 16]
       else if c4 = '=' then
         [b64val c1 * 4 + b64val c2 / 16, b64val c2 % 16 * 16 + b64val c3 / 4]
       else
         (b64val c1 * 4 + b64val c2 / 16) ::
         (b64val c2 % 16 * 16 + b64val c3 / 4) ::
         (b64val c3 % 4 * 64 + b64val c4) :: atobDec rest) := rfl

theorem b64_roundtrip : ∀ bytes : List Nat, (∀ b ∈ bytes, b < 256) →
    atobDec (b64encBytes bytes) = bytes := by
  intro bytes
  induction bytes using b64encBytes.induct with
  | case1 => intro _; rfl
  | case2 b1 =>
    intro hb
    have h1 := hb b1 (by simp)
    show atobDec [b64chr (b1 / 4), b64chr (b1 % 4 * 16), '=', '='] = [b1]
    rw [atobDec_cons, if_pos rfl]
    rw [b64val_b64chr (b1 / 4) (by omega), b64val_b64chr (b1 % 4 * 16) (by omega)]
    rw [show b1 / 4 * 4 + b1 % 4 * 16 / 16 = b1 by omega]
  | case3 b1 b2 =>
    intro hb
    have h1 := hb b1 (by simp)
    have h2 := hb b2 (by simp)
    show atobDec [b64chr (b1 / 4), b64chr (b1 % 4 * 16 + b2 / 16), b64chr (b2 % 16 * 4), '='] =
      [b1, b2]
    rw [atobDec_cons, if_neg (b64chr_ne_eq (b2 % 16 * 4) (by omega)), if_pos rfl]
    rw [b64val_b64chr (b1 / 4) (by omega), b64val_b64chr (b1 % 4 * 16 + b2 / 16) (by omega),
      b64val_b64chr (b2 % 16 * 4) (by omega)]
    rw [show b1 / 4 * 4 + (b1 % 4 * 16 + b2 / 16) / 16 = b1 by omega,
      show (b1 % 4 * 16 + b2 / 16) % 16 * 16 + b2 % 16 * 4 / 4 = b2 by omega]
  | case4 b1 b2 b3 rest ih =>
    intro hb
    have h1 := hb b1 (by simp)
    have h2 := hb b2 (by simp)
    have h3 := hb b3 (by simp)
    have hrec := ih fun x hx => hb x (by simp [hx])
    show atobDec (b64chr (b1 / 4) :: b64chr (b1 % 4 * 16 + b2 / 16) ::
      b64chr (b2 % 16 * 4 + b3 / 64) :: b64chr (b3 % 64) :: b64encBytes rest) = b1 :: b2 :: b3 :: rest
    rw [atobDec_cons, if_neg (b64chr_ne_eq (b2 % 16 * 4 + b3 / 64) (by omega)),
      if_neg (b64chr_ne_eq (b3 % 64) (by omega))]
    rw [b64val_b64chr (b1 / 4) (by omega), b64val_b64chr (b1 % 4 * 16 + b2 / 16) (by omega),
      b64val_b64chr (b2 % 16 * 4 + b3 / 64) (by omega), b64val_b64chr (b3 % 64) (by omega)]
    rw [hrec]
    rw [show b1 / 4 * 4 + (b1 % 4 * 16 + b2 / 16) / 16 = b1 by omega,
      show (b1 % 4 * 16 + b2 / 16) % 16 * 16 + (b2 % 16 * 4 + b3 / 64) / 4 = b2 by omega,
      show (b2 % 16 * 4 + b3 / 64) % 4 * 64 + b3 % 64 = b3 by omega]

theorem utf8Encode_length : ∀ cps : List Nat, cps.length ≤ (utf8Encode cps).length := by
  intro cps
  induction cps with
  | nil => simp [utf8Encode]
  | cons c rest ih =>
    simp only [utf8Encode, List.length_append, List.length_cons]
    repeat' split
    all_goals simp only [List.length_cons, List.length_nil, List.length_singleton]
    all_goals omega

theorem utf8_roundtrip_go : ∀ cps : List Nat, ∀ fuel : Nat, cps.length ≤ fuel →
    (∀ c ∈ cps, c < 1114112) → utf8DecGo fuel (utf8Encode cps) = cps := by
  intro cps
  induction cps with
  | nil => intro fuel _ _; cases fuel <;> rfl
  | cons c rest ih =>
    intro fuel hfuel hc
    have hcb := hc c (by simp)
    have hrest : ∀ x ∈ rest, x < 1114112 := fun x hx => hc x (by simp [hx])
    cases fuel with
    | zero => simp at hfuel
    | succ f =>
      have hf : rest.length ≤ f := by simp at hfuel; omega
      by_cases h1 : c < 128
      · have hstep : utf8Encode (c :: rest) = c :: utf8Encode rest := by
          simp only [utf8Encode, if_pos h1, List.singleton_append]
        rw [hstep]
        simp only [utf8DecGo, if_pos h1]
        rw [ih f hf hrest]
      · by_cases h2 : c < 2048
        · have hstep : utf8Encode (c :: rest) =
              (192 + c / 64) :: (128 + c % 64) :: utf8Encode rest := by
            simp only [utf8Encode, if_neg h1, if_pos h2, List.cons_append, List.nil_append]
          rw [hstep]
          simp only [utf8DecGo]
          rw [if_neg (by omega), if_neg (by omega)]
          rw [if_pos (by omega)]
          rw [if_pos (by
            refine ⟨by simp, ?_⟩
            simp only [List.getD_cons_zero, isCont, decide_eq_true_eq]
            omega)]
          simp only [List.getD_cons_zero, List.drop_succ_cons, List.drop_zero]
          rw [ih f hf hrest]
          rw [show (192 + c / 64 - 192) * 64 + (128 + c % 64 - 128) = c by omega]
        · by_cases h3 : c < 65536
          · have hstep : utf8Encode (c :: rest) =
                (224 + c / 4096) :: (128 + c / 64 % 64) :: (128 + c % 64) :: utf8Encode rest := by
              simp only [utf8Encode, if_neg h1, if_neg h2, if_pos h3, List.cons_append,
                List.nil_append]
            rw [hstep]
            simp only [utf8DecGo]
            rw [if_neg (by omega), if_neg (by omega), if_neg (by omega)]
            rw [if_pos (by omega)]
            rw [if_pos (by
              refine ⟨by simp, ?_, ?_⟩ <;>
                simp only [List.getD_cons_zero, List.getD_cons_succ, isCont,
                  decide_eq_true_eq] <;> omega)]
            simp only [List.getD_cons_zero, List.getD_cons_succ, List.drop_succ_cons,
              List.drop_zero]
            rw [ih f hf hrest]
            rw [show (224 + c / 4096 - 224) * 4096 + (128 + c / 64 % 64 - 128) * 64 +
              (128 + c % 64 - 128) = c by omega]
          · have hstep : utf8Encode (c :: rest) =
                (240 + c / 262144) :: (128 + c / 4096 % 64) :: (128 + c / 64 % 64) ::
                  (128 + c % 64) :: utf8Encode rest := by
              simp only [utf8Encode, if_neg h1, if_neg h2, if_neg h3, List.cons_append,
                List.nil_append]
            rw [hstep]
            simp only [utf8DecGo]
            rw [if_neg (by omega), if_neg (by omega), if_neg (by omega), if_neg (by omega)]
            rw [if_pos (by
              refine ⟨by simp, ?_, ?_, ?_⟩ <;>
                simp only [List.getD_cons_zero, List.getD_cons_succ, isCont,
                  decide_eq_true_eq] <;> omega)]
            simp only [List.getD_cons_zero, List.getD_cons_succ, List.drop_succ_cons,
              List.drop_zero]
            rw [ih f hf hrest]
            rw [show (240 + c / 262144 - 240) * 262144 + (128 + c / 4096 % 64 - 128) * 4096 +
              (128 + c / 64 % 64 - 128) * 64 + (128 + c % 64 - 128) = c by omega]

theorem utf8_roundtrip (cps : List Nat) (hc : ∀ c ∈ cps, c < 1114112) :
    utf8Decode (utf8Encode cps) = cps := by
  exact utf8_roundtrip_go cps (utf8Encode cps).length
    (le_trans (utf8Encode_length cps) (le_refl _)) hc

/-- C3 (counterexample): the round-trip claim extends to "arbitrary
JavaScript string content", but a lone high surrogate (code unit 55296,
i.e. 0xD800) is replaced by U+FFFD (65533) by the UTF-8 expansion, so
decoding the encoding does not restore it. -/
theorem c3_counterexample_lone_surrogate :
    decodeUnits (toBase64Units [55296]) = [65533] ∧
    decodeUnits (toBase64Units [55296]) ≠ [55296] := by decide

/-- C3 (amended): for every well-formed JavaScript string — every sequence
of UTF-16 code units in which surrogates occur only as correctly ordered
pairs, i.e. every sequence denoting Unicode text, multi-byte characters
included — encoding through `toBase64` and decoding with the standard
base64 and UTF-8 decoders restores the code units exactly.  Only the
ill-formed strings of the stated "arbitrary JavaScript string content"
(lone surrogates) fail. -/
theorem c3_roundtrip_wellformed (units : List Nat) (hb : ∀ u ∈ units, u < 65536)
    (hwf : wfUtf16 units = true) : decodeUnits (toBase64Units units) = units := by
  have hcps : ∀ c ∈ utf16ToCodepoints units, c < 1114112 := utf16_cp_bound units hb
  have hbytes : ∀ b ∈ utf8Encode (utf16ToCodepoints units), b < 256 :=
    utf8_bytes_bound _ hcps
  have hbtoa : btoaM (utf8Encode (utf16ToCodepoints units)) =
      some (b64encBytes (utf8Encode (utf16ToCodepoints units))) := by
    unfold btoaM
    rw [if_pos (List.all_eq_true.mpr fun b hb' => decide_eq_true (hbytes b hb'))]
  have henc : toBase64Units units = b64encBytes (utf8Encode (utf16ToCodepoints units)) := by
    unfold toBase64Units
    rw [hbtoa]
  rw [henc]
  unfold decodeUnits
  rw [b64_roundtrip _ hbytes, utf8_roundtrip _ hcps, utf16_roundtrip units hb hwf]

/-- C3 (witness): the amended round trip at the concrete string "hé😀"
(one ASCII unit, one Latin-1 unit, one surrogate pair). -/
theorem c3_roundtrip_witness :
    decodeUnits (toBase64Units [104, 233, 55357, 56832]) = [104, 233, 55357, 56832] :=
  c3_roundtrip_wellformed [104, 233, 55357, 56832] (by decide) (by decide)

/-- C10: the transport encoder is total and exception-silent: its result is
always the `btoa` output with the empty string as the fallback of the
`catch` branch; on actual JavaScript strings (code units below 2^16) no
internal step ever fails, so a string is always returned; and the sync
write body always carries exactly this encoder output as `content` — there
is no error path tied to encoding. -/
theorem c10_encoder_total_silent : ∀ units : List Nat,
    toBase64Units units = (btoaM (utf8Encode (utf16ToCodepoints units))).getD [] ∧
    ((∀ u ∈ units, u < 65536) →
      ∃ s, btoaM (utf8Encode (utf16ToCodepoints units)) = some s ∧ toBase64Units units = s) ∧
    (∀ f sha, (mkPushBody f sha).content = String.mk (toBase64Units (strUnits f.content))) := by
  intro units
  refine ⟨?_, ?_, fun f sha => rfl⟩
  · unfold toBase64Units
    cases h : btoaM (utf8Encode (utf16ToCodepoints units)) <;> simp
  · intro hb
    have hbytes : ∀ b ∈ utf8Encode (utf16ToCodepoints units), b < 256 :=
      utf8_bytes_bound _ (utf16_cp_bound units hb)
    refine ⟨b64encBytes (utf8Encode (utf16ToCodepoints units)), ?_, ?_⟩
    · unfold btoaM
      rw [if_pos (List.all_eq_true.mpr fun b hb' => decide_eq_true (hbytes b hb'))]
    · unfold toBase64Units btoaM
      rw [if_pos (List.all_eq_true.mpr fun b hb' => decide_eq_true (hbytes b hb'))]

/-- C10 (witness): the no-exception conjunct at the concrete string "Hi". -/
theorem c10_encoder_witness :
    ∃ s, btoaM (utf8Encode (utf16ToCodepoints [72, 105])) = some s ∧
      toBase64Units [72, 105] = s :=
  (c10_encoder_total_silent [72, 105]).2.1 (by decide)

/-! Lemmas about the file-list merge (claims C1 and C5). -/

theorem setContentAt_length : ∀ (l : List ProjectFile) (i : Nat) (c : String),
    (setContentAt l i c).length = l.length := by
  intro l
  induction l with
  | nil => intro i c; rfl
  | cons f rest ih =>
    intro i c
    cases i with
    | zero => rfl
    | succ n => simp [setContentAt, ih]

theorem setContentAt_getD : ∀ (l : List ProjectFile) (i : Nat) (c : String) (j : Nat),
    ((setContentAt l i c).getD j default).id = (l.getD j default).id ∧
    ((setContentAt l i c).getD j default).name = (l.getD j default).name ∧
    ((setContentAt l i c).getD j default).language = (l.getD j default).language ∧
    (j ≠ i → ((setContentAt l i c).getD j default).content = (l.getD j default).content) ∧
    (j = i → j < l.length → ((setContentAt l i c).getD j default).content = c) := by
  intro l
  induction l with
  | nil =>
    intro i c j
    refine ⟨rfl, rfl, rfl, fun _ => rfl, fun _ h => ?_⟩
    simp at h
  | cons f rest ih =>
    intro i c j
    cases i with
    | zero =>
      cases j with
      | zero => exact ⟨rfl, rfl, rfl, fun h => absurd rfl h, fun _ _ => rfl⟩
      | succ m =>
        refine ⟨rfl, rfl, rfl, fun _ => rfl, fun h _ => ?_⟩
        exact absurd h (by omega)
    | succ n =>
      cases j with
      | zero =>
        refine ⟨rfl, rfl, rfl, fun _ => rfl, fun h _ => ?_⟩
        exact absurd h (by omega)
      | succ m =>
        have hm := ih n c m
        refine ⟨hm.1, hm.2.1, hm.2.2.1, fun h => hm.2.2.2.1 (by omega), fun h hl => ?_⟩
        exact hm.2.2.2.2 (by omega) (by simpa using hl)

theorem findNameIdx_none : ∀ (key : List Nat) (l : List ProjectFile),
    findNameIdx key l = none → ∀ f ∈ l, lowerKey f.name ≠ key := by
  intro key l
  induction l with
  | nil => intro _ f hf; simp at hf
  | cons g rest ih =>
    intro h f hf
    by_cases hg : lowerKey g.name = key
    · simp [findNameIdx, hg] at h
    · simp only [findNameIdx, if_neg hg] at h
      have h2 : findNameIdx key rest = none := by
        cases hr : findNameIdx key rest
        · rfl
        · rw [hr] at h; simp at h
      rcases List.mem_cons.mp hf with rfl | hf2
      · exact hg
      · exact ih h2 f hf2

theorem keys_setContentAt : ∀ (l : List ProjectFile) (i : Nat) (c : String),
    (setContentAt l i c).map (fun f => lowerKey f.name) = l.map (fun f => lowerKey f.name) := by
  intro l
  induction l with
  | nil => intro i c; rfl
  | cons f rest ih =>
    intro i c
    cases i with
    | zero => rfl
    | succ n => simp [setContentAt, ih]

theorem mergeOne_noDup (acc : List ProjectFile) (nf : ProjectFile)
    (h : noDupKeys acc) : noDupKeys (mergeOne acc nf) := by
  unfold mergeOne
  cases hidx : findNameIdx (lowerKey nf.name) acc with
  | some i =>
    unfold noDupKeys
    rw [keys_setContentAt]
    exact h
  | none =>
    unfold noDupKeys at h ⊢
    rw [List.map_append]
    rw [List.nodup_append]
    refine ⟨h, by simp, ?_⟩
    intro a ha hb
    simp only [List.map_cons, List.map_nil, List.mem_singleton] at hb
    subst hb
    rcases List.mem_map.mp ha with ⟨f, hf, hkey⟩
    exact findNameIdx_none _ _ hidx f hf hkey

theorem mergeFiles_noDup : ∀ (batch prev : List ProjectFile),
    noDupKeys prev → noDupKeys (mergeFiles prev batch) := by
  intro batch
  induction batch with
  | nil => intro prev h; exact h
  | cons nf rest ih =>
    intro prev h
    exact ih (mergeOne prev nf) (mergeOne_noDup prev nf h)

/-- C1 (counterexample): the merge overwrites only `content`; a batch entry
matching `x` case-insensitively leaves the existing entry's `language`
(`css`) untouched even though the batch entry declares `js`, contradicting
"overwrites that entry's content AND language". -/
theorem c1_counterexample_language_preserved :
    mergeFiles [⟨"a", "x", "css", "old"⟩] [⟨"b", "X", "js", "new"⟩] =
      [⟨"a", "x", "css", "new"⟩] ∧
    ProjectFile.language ⟨"a", "x", "css", "new"⟩ ≠
      ProjectFile.language ⟨"b", "X", "js", "new"⟩ := by decide

/-- C1 (amended): the file-list merge is an upsert keyed by case-insensitive
name, processed in extraction order: a batch entry whose name matches an
existing entry case-insensitively overwrites that entry's `content` ONLY,
in place — `id`, `name`, `language` and list position are all preserved —
while a batch entry with no match is appended at the end; consequently a
working set holding at most one file per case-insensitive name keeps that
invariant across any merge. -/
theorem c1_merge_content_only_upsert :
    (∀ (acc : List ProjectFile) (nf : ProjectFile) (i : Nat),
      findNameIdx (lowerKey nf.name) acc = some i →
      mergeOne acc nf = setContentAt acc i nf.content ∧
      (mergeOne acc nf).length = acc.length ∧
      ∀ j : Nat,
        ((mergeOne acc nf).getD j default).id = (acc.getD j default).id ∧
        ((mergeOne acc nf).getD j default).name = (acc.getD j default).name ∧
        ((mergeOne acc nf).getD j default).language = (acc.getD j default).language ∧
        (j ≠ i → ((mergeOne acc nf).getD j default).content = (acc.getD j default).content) ∧
        (j = i → j < acc.length → ((mergeOne acc nf).getD j default).content = nf.content)) ∧
    (∀ (acc : List ProjectFile) (nf : ProjectFile),
      findNameIdx (lowerKey nf.name) acc = none → mergeOne acc nf = acc ++ [nf]) ∧
    (∀ (prev batch : List ProjectFile), noDupKeys prev → noDupKeys (mergeFiles prev batch)) := by
  refine ⟨?_, ?_, fun prev batch h => mergeFiles_noDup batch prev h⟩
  · intro acc nf i hidx
    have heq : mergeOne acc nf = setContentAt acc i nf.content := by
      unfold mergeOne
      rw [hidx]
    refine ⟨heq, ?_, ?_⟩
    · rw [heq, setContentAt_length]
    · intro j
      rw [heq]
      exact setContentAt_getD acc i nf.content j
  · intro acc nf hidx
    unfold mergeOne
    rw [hidx]

/-- C1 (witness): the amended statement applied at a concrete overwrite
(`X.css` updating `x.CSS` in place) and a concrete no-duplicate set. -/
theorem c1_merge_witness :
    mergeOne [⟨"a", "x.CSS", "css", "old"⟩] ⟨"b", "X.css", "js", "new"⟩ =
      setContentAt [⟨"a", "x.CSS", "css", "old"⟩] 0 ("new") ∧
    noDupKeys (mergeFiles [⟨"a", "x.CSS", "css", "old"⟩] [⟨"b", "X.css", "js", "new"⟩]) :=
  ⟨((c1_merge_content_only_upsert.1 [⟨"a", "x.CSS", "css", "old"⟩]
      ⟨"b", "X.css", "js", "new"⟩ 0 (by decide)).1),
   c1_merge_content_only_upsert.2.2 [⟨"a", "x.CSS", "css", "old"⟩]
     [⟨"b", "X.css", "js", "new"⟩] (by simp [noDupKeys])⟩

/-- C5 (code-bug evidence): after a batch whose first file merges into a
pre-existing entry, `activeFileId` is set to the batch entry's fresh id
(`b`), but the merged working set preserves the original id (`a`), so the
active-file identifier designates no working-set entry at all: the first
extracted file does NOT become the displayed active file. -/
theorem c5_active_id_dangling :
    applyParsedBatch [⟨"a", "index.html", "html", "old"⟩] none
        [⟨"b", "INDEX.HTML", "html", "new"⟩] =
      ([⟨"a", "index.html", "html", "new"⟩], some ("b")) ∧
    ([⟨"a", "index.html", "html", "new"⟩] : List ProjectFile).map ProjectFile.id = ["a"] ∧
    (("a" : String) == "b") = false := by decide

/-! Lemmas about the synchroniser (claims C4, C6, C7, C9). -/

theorem syncLoop_err (env : SyncEnv) (repo : String) :
    ∀ (files : List ProjectFile) (k i0 : Nat),
    k < files.length →
    (∀ j, j < k → (env.pushResp (i0 + j)).ok = true) →
    (env.pushResp (i0 + k)).ok = false →
    syncLoop env repo i0 files =
      (SyncResult.error (jsOrElse (env.pushResp (i0 + k)).message
        ("Gagal push " ++ (files.getD k default).name)),
       traceUpTo env repo i0 files k) := by
  intro files
  induction files with
  | nil => intro k i0 hk; simp at hk
  | cons f rest ih =>
    intro k i0 hk hok hfail
    cases k with
    | zero =>
      simp only [Nat.add_zero] at hfail
      simp only [syncLoop, hfail, Bool.false_eq_true, if_false]
      rfl
    | succ k0 =>
      have h0 : (env.pushResp i0).ok = true := by
        have := hok 0 (by omega)
        simpa using this
      simp only [syncLoop, h0, if_true]
      have hrec := ih k0 (i0 + 1) (by simpa using hk)
        (fun j hj => by
          have := hok (j + 1) (by omega)
          rw [show i0 + 1 + j = i0 + (j + 1) by omega]
          exact this)
        (by rw [show i0 + 1 + k0 = i0 + (k0 + 1) by omega]; exact hfail)
      rw [hrec]
      simp only [traceUpTo, List.getD_cons_succ, pairReqs, List.cons_append, List.nil_append]
      rw [show i0 + 1 + k0 = i0 + (k0 + 1) by omega]

theorem syncLoop_pair_mem (env : SyncEnv) (repo : String) :
    ∀ (files : List ProjectFile) (i i0 : Nat),
    i < files.length →
    (∀ j, j < i → (env.pushResp (i0 + j)).ok = true) →
    Req.push (i0 + i) (urlOf repo (files.getD i default))
      (mkPushBody (files.getD i default) (shaOf (env.lookupResp (i0 + i))))
      ∈ (syncLoop env repo i0 files).2 := by
  intro files
  induction files with
  | nil => intro i i0 hi; simp at hi
  | cons f rest ih =>
    intro i i0 hi hok
    cases i with
    | zero =>
      simp only [Nat.add_zero, List.getD_cons_zero]
      cases hresp : (env.pushResp i0).ok
      · simp only [syncLoop, hresp, Bool.false_eq_true, if_false]
        simp
      · simp only [syncLoop, hresp, if_true]
        simp
    | succ i0' =>
      have h0 : (env.pushResp i0).ok = true := by
        have := hok 0 (by omega)
        simpa using this
      simp only [syncLoop, h0, if_true, List.getD_cons_succ]
      have hrec := ih i0' (i0 + 1) (by simpa using hi)
        (fun j hj => by
          have := hok (j + 1) (by omega)
          rw [show i0 + 1 + j = i0 + (j + 1) by omega]
          exact this)
      rw [show i0 + (i0' + 1) = i0 + 1 + i0' by omega]
      simp only [List.mem_cons]
      right; right
      exact hrec

theorem syncLoop_result_lookup_free (env env' : SyncEnv) (repo : String)
    (h : env'.pushResp = env.pushResp) :
    ∀ (files : List ProjectFile) (i0 : Nat),
    (syncLoop env' repo i0 files).1 = (syncLoop env repo i0 files).1 := by
  intro files
  induction files with
  | nil => intro i0; rfl
  | cons f rest ih =>
    intro i0
    simp only [syncLoop, h]
    cases hresp : (env.pushResp i0).ok
    · simp only [Bool.false_eq_true, if_false]
    · simp only [if_true]
      exact ih (i0 + 1)

theorem traceUpTo_countP (env : SyncEnv) (repo : String) :
    ∀ (files : List ProjectFile) (k i0 i : Nat),
    k < files.length →
    List.countP (reqIsPush i) (traceUpTo env repo i0 files k) =
      if i0 ≤ i ∧ i ≤ i0 + k then 1 else 0 := by
  intro files
  induction files with
  | nil => intro k i0 i hk; simp at hk
  | cons f rest ih =>
    intro k i0 i hk
    cases k with
    | zero =>
      simp only [traceUpTo, pairReqs, List.countP_cons, List.countP_nil, reqIsPush,
        beq_iff_eq, Bool.false_eq_true, if_false]
      split_ifs <;> omega
    | succ k0 =>
      simp only [traceUpTo, List.countP_append]
      rw [ih k0 (i0 + 1) i (by simpa using hk)]
      simp only [pairReqs, List.countP_cons, List.countP_nil, reqIsPush,
        beq_iff_eq, Bool.false_eq_true, if_false]
      split_ifs <;> omega

theorem traceUpTo_idx_le (env : SyncEnv) (repo : String) :
    ∀ (files : List ProjectFile) (k i0 : Nat) (r : Req),
    r ∈ traceUpTo env repo i0 files k → i0 ≤ reqIdx r ∧ reqIdx r ≤ i0 + k := by
  intro files
  induction files with
  | nil => intro k i0 r hr; simp [traceUpTo] at hr
  | cons f rest ih =>
    intro k i0 r hr
    cases k with
    | zero =>
      simp only [traceUpTo, pairReqs, List.mem_cons, List.mem_singleton] at hr
      rcases hr with rfl | rfl | h
      · simp [reqIdx]
      · simp [reqIdx]
      · simp at h
    | succ k0 =>
      simp only [traceUpTo, List.mem_append, pairReqs, List.mem_cons,
        List.mem_singleton] at hr
      rcases hr with (rfl | rfl | h) | h
      · simp [reqIdx]
      · simp [reqIdx]
      · simp at h
      · have := ih k0 (i0 + 1) r h
        omega

theorem syncToGithub_run (token repo : String) (files : List ProjectFile) (env : SyncEnv)
    (ht : token ≠ "") (hr : repo ≠ "") (hf : files ≠ []) :
    syncToGithub token repo files env = syncLoop env repo 0 files := by
  unfold syncToGithub
  rw [if_neg (by tauto), if_neg hf]

/-- C6: sequential fail-fast abort: with non-empty credentials, if every
write before the k-th succeeds and the k-th write fails, then every file up
to and including the k-th had its write request issued exactly once, no
request (lookup or write) with a file index beyond k was issued, and the
run's only outcome is the single error — the result carries no
partial-progress record. -/
theorem c6_sequential_fail_fast (token repo : String) (env : SyncEnv)
    (files : List ProjectFile) (k : Nat)
    (ht : token ≠ "") (hr : repo ≠ "") (hk : k < files.length)
    (hok : ∀ j, j < k → (env.pushResp j).ok = true)
    (hfail : (env.pushResp k).ok = false) :
    (∀ i, i ≤ k → List.countP (reqIsPush i) (syncToGithub token repo files env).2 = 1) ∧
    (∀ r ∈ (syncToGithub token repo files env).2, reqIdx r ≤ k) ∧
    (∃ m, (syncToGithub token repo files env).1 = SyncResult.error m) := by
  have hf : files ≠ [] := by
    intro h
    subst h
    simp at hk
  have hrun := syncToGithub_run token repo files env ht hr hf
  have herr := syncLoop_err env repo files k 0 hk
    (fun j hj => by simpa using hok j hj) (by simpa using hfail)
  rw [hrun, herr]
  refine ⟨?_, ?_, ⟨_, rfl⟩⟩
  · intro i hi
    rw [traceUpTo_countP env repo files k 0 i hk, if_pos (by omega)]
  · intro r hr2
    have := traceUpTo_idx_le env repo files k 0 r hr2
    omega

/-- C6 (witness): the fail-fast conclusions at a concrete two-file set whose
second write fails: exactly one write request per file index 0 and 1, no
request beyond index 1, and an error outcome. -/
theorem c6_sequential_witness :
    (∀ i, i ≤ 1 → List.countP (reqIsPush i)
      (syncToGithub ("t") ("r") [⟨"1", "a.js", "js", "x"⟩, ⟨"2", "b.js", "js", "y"⟩]
        { lookupResp := fun _ => LookupResp.notOk
        , pushResp := fun i => if i = 0 then ⟨true, none⟩
            else ⟨false, some ("Bad credentials")⟩ }).2 = 1) ∧
    (∀ r ∈ (syncToGithub ("t") ("r") [⟨"1", "a.js", "js", "x"⟩, ⟨"2", "b.js", "js", "y"⟩]
        { lookupResp := fun _ => LookupResp.notOk
        , pushResp := fun i => if i = 0 then ⟨true, none⟩
            else ⟨false, some ("Bad credentials")⟩ }).2, reqIdx r ≤ 1) ∧
    (∃ m, (syncToGithub ("t") ("r") [⟨"1", "a.js", "js", "x"⟩, ⟨"2", "b.js", "js", "y"⟩]
        { lookupResp := fun _ => LookupResp.notOk
        , pushResp := fun i => if i = 0 then ⟨true, none⟩
            else ⟨false, some ("Bad credentials")⟩ }).1 = SyncResult.error m) :=
  c6_sequential_fail_fast ("t") ("r")
    { lookupResp := fun _ => LookupResp.notOk
    , pushResp := fun i => if i = 0 then ⟨true, none⟩
        else ⟨false, some ("Bad credentials")⟩ }
    [⟨"1", "a.js", "js", "x"⟩, ⟨"2", "b.js", "js", "y"⟩] 1
    (by decide) (by decide) (by decide)
    (by intro j hj; interval_cases j <;> decide) (by decide)

/-- C4 (counterexample): when the remote reports a message, the surfaced
error is that message ALONE (`errData.message || fallback`): for a run
whose second file `b.js` fails with remote message `Bad credentials`, the
error text does not name the failing file at all, refuting "names the
failing file and additionally carries the remote-reported message". -/
theorem c4_counterexample_message_omits_filename :
    (syncToGithub ("t") ("r") [⟨"1", "a.js", "js", "x"⟩, ⟨"2", "b.js", "js", "y"⟩]
      { lookupResp := fun _ => LookupResp.notOk
      , pushResp := fun i => if i = 0 then ⟨true, none⟩
          else ⟨false, some ("Bad credentials")⟩ }).1 =
      SyncResult.error ("Bad credentials") ∧
    containsSeq ("Bad credentials").data ("b.js").data = false := by decide

/-- C4 (amended): a failing k-th write aborts the whole synchronisation
immediately with an error that is the remote-reported message ALONE when a
non-empty one is present, and otherwise a generic fallback message
(`Gagal push <file>`) that names the failing file — the remote message,
when present, replaces rather than augments the file-naming text. -/
theorem c4_error_message_selection (token repo : String) (env : SyncEnv)
    (files : List ProjectFile) (k : Nat)
    (ht : token ≠ "") (hr : repo ≠ "") (hk : k < files.length)
    (hok : ∀ j, j < k → (env.pushResp j).ok = true)
    (hfail : (env.pushResp k).ok = false) :
    (syncToGithub token repo files env).1 =
      SyncResult.error (jsOrElse (env.pushResp k).message
        ("Gagal push " ++ (files.getD k default).name)) ∧
    (∀ s fb, s ≠ "" → jsOrElse (some s) fb = s) ∧
    (∀ fb, jsOrElse none fb = fb) ∧
    (∀ fb, jsOrElse (some "") fb = fb) := by
  have hf : files ≠ [] := by
    intro h
    subst h
    simp at hk
  have hrun := syncToGithub_run token repo files env ht hr hf
  have herr := syncLoop_err env repo files k 0 hk
    (fun j hj => by simpa using hok j hj) (by simpa using hfail)
  rw [hrun, herr]
  simp only [Nat.zero_add]
  refine ⟨trivial, ?_, fun fb => rfl, fun fb => by simp [jsOrElse]⟩
  intro s fb hs
  simp [jsOrElse, hs]

/-- C4 (witness): the amended statement at the concrete failing run of the
counterexample (remote message present and non-empty). -/
theorem c4_error_witness :
    (syncToGithub ("t") ("r") [⟨"1", "a.js", "js", "x"⟩, ⟨"2", "b.js", "js", "y"⟩]
      { lookupResp := fun _ => LookupResp.notOk
      , pushResp := fun i => if i = 0 then ⟨true, none⟩
          else ⟨false, some ("Bad credentials")⟩ }).1 =
      SyncResult.error (jsOrElse (some ("Bad credentials")) ("Gagal push " ++
        (([⟨"1", "a.js", "js", "x"⟩, ⟨"2", "b.js", "js", "y"⟩] :
          List ProjectFile).getD 1 default).name)) ∧
    (∀ s fb, s ≠ "" → jsOrElse (some s) fb = s) ∧
    (∀ fb, jsOrElse none fb = fb) ∧
    (∀ fb, jsOrElse (some "") fb = fb) :=
  c4_error_message_selection ("t") ("r")
    { lookupResp := fun _ => LookupResp.notOk
    , pushResp := fun i => if i = 0 then ⟨true, none⟩
        else ⟨false, some ("Bad credentials")⟩ }
    [⟨"1", "a.js", "js", "x"⟩, ⟨"2", "b.js", "js", "y"⟩] 1
    (by decide) (by decide) (by decide)
    (by intro j hj; interval_cases j <;> decide) (by decide)

/-- C7: a lookup that throws or reports non-ok is treated as "no existing
object" and never surfaced — the run's outcome is unchanged by any change
to the lookup responses — and the write for a reached file carries a `sha`
exactly when its lookup succeeded and returned one (the GitHub API's
shas are non-empty strings), and omits it otherwise. -/
theorem c7_lookup_swallowed_sha_exact (token repo : String) (env env' : SyncEnv)
    (files : List ProjectFile) (i : Nat)
    (ht : token ≠ "") (hr : repo ≠ "") (hi : i < files.length)
    (hok : ∀ j, j < i → (env.pushResp j).ok = true)
    (hsha : ∀ s, env.lookupResp i = LookupResp.ok (some s) → s ≠ "")
    (henv : env'.pushResp = env.pushResp) :
    (Req.push i (urlOf repo (files.getD i default))
      (mkPushBody (files.getD i default) (shaOf (env.lookupResp i)))
      ∈ (syncToGithub token repo files env).2) ∧
    (∀ s, (mkPushBody (files.getD i default) (shaOf (env.lookupResp i))).sha = some s ↔
      env.lookupResp i = LookupResp.ok (some s)) ∧
    (syncToGithub token repo files env').1 = (syncToGithub token repo files env).1 := by
  have hf : files ≠ [] := by
    intro h
    subst h
    simp at hi
  refine ⟨?_, ?_, ?_⟩
  · rw [syncToGithub_run token repo files env ht hr hf]
    have := syncLoop_pair_mem env repo files i 0 hi (fun j hj => by simpa using hok j hj)
    simpa using this
  · intro s
    cases hl : env.lookupResp i with
    | exn => simp [mkPushBody, shaOf, jsOrNone]
    | notOk => simp [mkPushBody, shaOf, jsOrNone]
    | ok osha =>
      cases osha with
      | none => simp [mkPushBody, shaOf, jsOrNone]
      | some t =>
        have ht' : t ≠ "" := hsha t hl
        simp [mkPushBody, shaOf, jsOrNone, ht']
  · rw [syncToGithub_run token repo files env ht hr hf,
      syncToGithub_run token repo files env' ht hr hf]
    exact syncLoop_result_lookup_free env env' repo henv files 0

/-- C7 (witness): the statement at a concrete one-file run whose lookup
returns sha `abc123`, compared against a run whose lookup throws. -/
theorem c7_lookup_witness :
    (Req.push 0 (urlOf ("u/r") (([⟨"1", "a.js", "js", "x"⟩] :
        List ProjectFile).getD 0 default))
      (mkPushBody (([⟨"1", "a.js", "js", "x"⟩] : List ProjectFile).getD 0 default)
        (shaOf (LookupResp.ok (some ("abc123")))))
      ∈ (syncToGithub ("t") ("u/r") [⟨"1", "a.js", "js", "x"⟩]
        { lookupResp := fun _ => LookupResp.ok (some ("abc123"))
        , pushResp := fun _ => ⟨true, none⟩ }).2) ∧
    (∀ s, (mkPushBody (([⟨"1", "a.js", "js", "x"⟩] : List ProjectFile).getD 0 default)
        (shaOf (LookupResp.ok (some ("abc123"))))).sha = some s ↔
      LookupResp.ok (some ("abc123")) = LookupResp.ok (some s)) ∧
    ((syncToGithub ("t") ("u/r") [⟨"1", "a.js", "js", "x"⟩]
        { lookupResp := fun _ => LookupResp.exn
        , pushResp := fun _ => ⟨true, none⟩ }).1 =
      (syncToGithub ("t") ("u/r") [⟨"1", "a.js", "js", "x"⟩]
        { lookupResp := fun _ => LookupResp.ok (some ("abc123"))
        , pushResp := fun _ => ⟨true, none⟩ }).1) :=
  c7_lookup_swallowed_sha_exact ("t") ("u/r")
    { lookupResp := fun _ => LookupResp.ok (some ("abc123"))
    , pushResp := fun _ => ⟨true, none⟩ }
    { lookupResp := fun _ => LookupResp.exn
    , pushResp := fun _ => ⟨true, none⟩ }
    [⟨"1", "a.js", "js", "x"⟩] 0
    (by decide) (by decide) (by decide)
    (by intro j hj; omega)
    (by intro s hs; cases hs; decide)
    rfl

/-- C9: with an empty token or an empty repository identifier the sync
issues no request and routes to the settings prompt; with non-empty
credentials but an empty working set it issues no request and fails with
the distinct `Belum ada file untuk dikirim.` ("nothing to send") error. -/
theorem c9_preconditions_no_network :
    (∀ (token repo : String) (files : List ProjectFile) (env : SyncEnv),
      (token = "" ∨ repo = "") →
      syncToGithub token repo files env = (SyncResult.settingsPrompt, [])) ∧
    (∀ (token repo : String) (env : SyncEnv),
      token ≠ "" → repo ≠ "" →
      syncToGithub token repo [] env =
        (SyncResult.error ("Belum ada file untuk dikirim."), [])) := by
  constructor
  · intro token repo files env h
    unfold syncToGithub
    rw [if_pos h]
  · intro token repo env ht hr
    unfold syncToGithub
    rw [if_neg (by tauto), if_pos rfl]

/-- C9 (witness): both preconditions at concrete inputs: empty token routes
to settings with no requests; non-empty credentials with an empty set give
the "nothing to send" error with no requests. -/
theorem c9_preconditions_witness :
    syncToGithub ("") ("u/r") [⟨"1", "a.js", "js", "x"⟩]
      { lookupResp := fun _ => LookupResp.notOk, pushResp := fun _ => ⟨true, none⟩ } =
      (SyncResult.settingsPrompt, []) ∧
    syncToGithub ("t") ("u/r") []
      { lookupResp := fun _ => LookupResp.notOk, pushResp := fun _ => ⟨true, none⟩ } =
      (SyncResult.error ("Belum ada file untuk dikirim."), []) :=
  ⟨c9_preconditions_no_network.1 ("") ("u/r") [⟨"1", "a.js", "js", "x"⟩]
    { lookupResp := fun _ => LookupResp.notOk, pushResp := fun _ => ⟨true, none⟩ }
    (Or.inl rfl),
   c9_preconditions_no_network.2 ("t") ("u/r")
    { lookupResp := fun _ => LookupResp.notOk, pushResp := fun _ => ⟨true, none⟩ }
    (by decide) (by decide)⟩

/-! Lemmas about the preview body extraction (claim C2). -/

theorem isCloseAt_head_ne (c : Char) (r : List Char) (h : lowCode c ≠ 60) :
    isCloseAt (c :: r) = false := by
  simp only [isCloseAt, List.take_succ_cons, List.map_cons, decide_eq_false_iff_not]
  intro heq
  exact h (List.cons.injEq _ _ _ _ ▸ heq).1

theorem splitLastClose_none_iff : ∀ l : List Char,
    splitLastClose l = none ↔ hasClose l = false := by
  intro l
  induction l with
  | nil => simp [splitLastClose, hasClose]
  | cons c rest ih =>
    simp only [splitLastClose, hasClose]
    cases hr : splitLastClose rest with
    | some ab =>
      simp only []
      constructor
      · intro h
        cases h
      · intro h
        rw [Bool.or_eq_false_iff] at h
        exact absurd (ih.mpr h.2) (by rw [hr]; intro hx; cases hx)
    | none =>
      simp only []
      have hrest : hasClose rest = false := ih.mp hr
      cases hcl : isCloseAt (c :: rest) with
      | true => simp [hcl, hrest]
      | false => simp [hcl, hrest]

theorem splitLastClose_cons_none (c : Char) (r : List Char)
    (h1 : splitLastClose r = none) (h2 : isCloseAt (c :: r) = false) :
    splitLastClose (c :: r) = none := by
  simp only [splitLastClose, h1, h2, Bool.false_eq_true, if_false]

theorem splitLastClose_cons_close (c : Char) (r : List Char)
    (h1 : splitLastClose r = none) (h2 : isCloseAt (c :: r) = true) :
    splitLastClose (c :: r) = some ([], (c :: r).drop 7) := by
  simp only [splitLastClose, h1, h2, if_true]

theorem splitLastClose_append (T : List Char) (a b : List Char)
    (h : splitLastClose T = some (a, b)) :
    ∀ M : List Char, splitLastClose (M ++ T) = some (M ++ a, b) := by
  intro M
  induction M with
  | nil => simpa using h
  | cons m M' ih =>
    simp only [List.cons_append, splitLastClose, List.append_eq, ih]

theorem bodyMatchScan_skip (T : List Char) : ∀ A : List Char, (∀ c ∈ A, c ≠ '<') →
    bodyMatchScan (A ++ T) = bodyMatchScan T := by
  intro A
  induction A with
  | nil => intro _; rfl
  | cons a A' ih =>
    intro h
    have ha : a ≠ '<' := h a (by simp)
    have hnone : bodyMatchAt (a :: (A' ++ T)) = none := by
      simp only [bodyMatchAt]
      rw [if_neg (fun hx => ha hx.1)]
    simp only [List.cons_append, bodyMatchScan, List.append_eq, hnone]
    exact ih fun c hc => h c (by simp [hc])

theorem isCloseAt_explicit (a b c d e f g : Char) (r : List Char) :
    isCloseAt (a :: b :: c :: d :: e :: f :: g :: r) =
      decide ([lowCode a, lowCode b, lowCode c, lowCode d, lowCode e, lowCode f, lowCode g] =
        [60, 47, 98, 111, 100, 121, 62]) := rfl

/-- C2 (counterexample): the capture `[\s\S]*` is greedy, so the body
substring of `<body>A</body>B</body>` runs to the LAST closing body tag
(`A</body>B`), not to the first (`A`) as the claim's "non-greedy — up to
the FIRST closing body tag" states. -/
theorem c2_counterexample_greedy_body :
    previewBodyContent (("<body>A</body>B</body>").data) = ("A</body>B").data ∧
    previewBodyContent (("<body>A</body>B</body>").data) ≠ ("A").data := by decide

/-- C2 (amended): for every HTML content of the shape
`A <kwO attrs> M </kwC> P` — first opening body tag after `A` (no `<` in
`A`), tags case-insensitive, no closing body tag in `P` — preview assembly
extracts as the body substring the text `M` between the first opening body
tag and the LAST closing body tag (the capture is greedy; `M` itself may
contain closing body tags); if the body pattern does not match at all, the
entire HTML file content is used as the body substring. -/
theorem c2_body_greedy_last_close (A kwO attrs M kwC P : List Char)
    (hA : ∀ c ∈ A, c ≠ '<')
    (hkwO : kwO.map lowCode = [98, 111, 100, 121])
    (hattrs : ∀ c ∈ attrs, c ≠ '>')
    (hkwC : kwC.map lowCode = [98, 111, 100, 121])
    (hP : hasClose P = false) :
    previewBodyContent (A ++ '<' :: (kwO ++ attrs ++ '>' ::
      (M ++ '<' :: '/' :: (kwC ++ '>' :: P)))) = M ∧
    (∀ content, bodyMatchScan content = none → previewBodyContent content = content) := by
  constructor
  · have hlenC : kwC.length = 4 := by
      have := congrArg List.length hkwC
      simpa using this
    have hlenO : kwO.length = 4 := by
      have := congrArg List.length hkwO
      simpa using this
    rcases kwC with _ | ⟨c1, _ | ⟨c2, _ | ⟨c3, _ | ⟨c4, _ | ⟨c5, t⟩⟩⟩⟩⟩ <;>
      simp only [List.length_nil, List.length_cons] at hlenC <;> try omega
    rcases kwO with _ | ⟨o1, _ | ⟨o2, _ | ⟨o3, _ | ⟨o4, _ | ⟨o5, t2⟩⟩⟩⟩⟩ <;>
      simp only [List.length_nil, List.length_cons] at hlenO <;> try omega
    obtain ⟨h1, h2, h3, h4⟩ : lowCode c1 = 98 ∧ lowCode c2 = 111 ∧ lowCode c3 = 100 ∧
        lowCode c4 = 121 := by
      simpa using hkwC
    obtain ⟨g1, g2, g3, g4⟩ : lowCode o1 = 98 ∧ lowCode o2 = 111 ∧ lowCode o3 = 100 ∧
        lowCode o4 = 121 := by
      simpa using hkwO
    have hpn : splitLastClose P = none := (splitLastClose_none_iff P).mpr hP
    have s7 : splitLastClose ('>' :: P) = none :=
      splitLastClose_cons_none _ _ hpn (isCloseAt_head_ne _ _ (by decide))
    have s6 : splitLastClose (c4 :: '>' :: P) = none :=
      splitLastClose_cons_none _ _ s7 (isCloseAt_head_ne _ _ (by omega))
    have s5 : splitLastClose (c3 :: c4 :: '>' :: P) = none :=
      splitLastClose_cons_none _ _ s6 (isCloseAt_head_ne _ _ (by omega))
    have s4 : splitLastClose (c2 :: c3 :: c4 :: '>' :: P) = none :=
      splitLastClose_cons_none _ _ s5 (isCloseAt_head_ne _ _ (by omega))
    have s3 : splitLastClose (c1 :: c2 :: c3 :: c4 :: '>' :: P) = none :=
      splitLastClose_cons_none _ _ s4 (isCloseAt_head_ne _ _ (by omega))
    have s2 : splitLastClose ('/' :: c1 :: c2 :: c3 :: c4 :: '>' :: P) = none :=
      splitLastClose_cons_none _ _ s3 (isCloseAt_head_ne _ _ (by decide))
    have htop : isCloseAt ('<' :: '/' :: c1 :: c2 :: c3 :: c4 :: '>' :: P) = true := by
      rw [isCloseAt_explicit, h1, h2, h3, h4]
      decide
    have hC : splitLastClose ('<' :: '/' :: c1 :: c2 :: c3 :: c4 :: '>' :: P) =
        some ([], P) := by
      rw [splitLastClose_cons_close _ _ s2 htop]
      rfl
    have hsplit : splitLastClose (M ++ ('<' :: '/' :: c1 :: c2 :: c3 :: c4 :: '>' :: P)) =
        some (M, P) := by
      have := splitLastClose_append _ _ _ hC M
      simpa using this
    have hmt : bodyMatchAt ('<' :: (o1 :: o2 :: o3 :: o4 :: [] ++ attrs ++ '>' ::
        (M ++ '<' :: '/' :: (c1 :: c2 :: c3 :: c4 :: [] ++ '>' :: P)))) = some M := by
      simp only [bodyMatchAt, List.cons_append, List.nil_append]
      rw [if_pos (by
        refine ⟨trivial, ?_⟩
        simp only [List.take_succ_cons, List.take_zero, List.map_cons, List.map_nil]
        rw [g1, g2, g3, g4])]
      simp only [List.drop_succ_cons, List.drop_zero]
      rw [dropWhile_append_all _ (fun c hc => decide_eq_true (hattrs c hc))]
      rw [dropWhile_cons_neg _ (by decide)]
      simp only []
      rw [if_pos trivial, hsplit]
    rw [previewBodyContent, bodyMatchScan_skip _ A hA]
    simp only [List.cons_append, List.nil_append] at hmt ⊢
    rw [bodyMatchScan, hmt]
    rfl
  · intro content h
    rw [previewBodyContent, h]
    rfl

/-- C2 (witness): the amended extraction at concrete content
`x<BoDy id=1>A</body>B</BODY>tail`: the greedy capture is `A</body>B`
(crossing an inner closing tag), and a tagless content is returned whole. -/
theorem c2_body_witness :
    previewBodyContent (("x").data ++ '<' :: (("BoDy").data ++ (" id=1").data ++ '>' ::
      (("A</body>B").data ++ '<' :: '/' :: (("BODY").data ++ '>' :: ("tail").data)))) =
      ("A</body>B").data ∧
    (∀ content, bodyMatchScan content = none → previewBodyContent content = content) :=
  c2_body_greedy_last_close (("x").data) (("BoDy").data) ((" id=1").data)
    (("A</body>B").data) (("BODY").data) (("tail").data)
    (by decide) (by decide) (by decide) (by decide) (by decide)

/-! Lemmas about the response parser (claim C8). -/

theorem nameChar_not_space (c : Char) (h : nameCharB c = true) : jsSpaceB c = false := by
  simp only [nameCharB, wordCharB, Bool.or_eq_true, decide_eq_true_eq] at h
  simp only [jsSpaceB, decide_eq_false_iff_not]
  omega

theorem wordChar_not_space (c : Char) (h : wordCharB c = true) : jsSpaceB c = false := by
  simp only [wordCharB, decide_eq_true_eq] at h
  simp only [jsSpaceB, decide_eq_false_iff_not]
  omega

theorem nameChar_ne_lbrack (c : Char) (h : nameCharB c = true) : c ≠ '[' := by
  intro he
  subst he
  simp [nameCharB, wordCharB] at h

theorem takeWhile_append_stop {p : Char → Bool} (u : List Char) (x : Char) (t : List Char)
    (hx : p x = false) : (u ++ x :: t).takeWhile p = u.takeWhile p := by
  induction u with
  | nil => simp [List.takeWhile_cons, hx]
  | cons a u' ih =>
    simp only [List.cons_append, List.takeWhile_cons]
    cases ha : p a <;> simp [ih]

theorem dropWhile_append_stop {p : Char → Bool} (u : List Char) (x : Char) (t : List Char)
    (hx : p x = false) : (u ++ x :: t).dropWhile p = u.dropWhile p ++ x :: t := by
  induction u with
  | nil => simp [List.dropWhile_cons, hx]
  | cons a u' ih =>
    simp only [List.cons_append, List.dropWhile_cons]
    cases ha : p a <;> simp [ih]

theorem dropWhile_all_neg {p : Char → Bool} (l : List Char)
    (h : ∀ c ∈ l, p c = false) : l.dropWhile p = l := by
  cases l with
  | nil => rfl
  | cons a t => simp [List.dropWhile_cons, h a (by simp)]

theorem fenceHead_explicit (a b c : Char) (r : List Char) :
    fenceHead (a :: b :: c :: r) = decide ([a, b, c] = [bq, bq, bq]) := rfl

theorem fenceHead_append (l r : List Char) (h : 3 ≤ l.length) :
    fenceHead (l ++ r) = fenceHead l := by
  rcases l with _ | ⟨a, _ | ⟨b, _ | ⟨c, t⟩⟩⟩ <;> simp only [List.length_nil,
    List.length_cons] at h <;> try omega
  simp only [List.cons_append, fenceHead_explicit]

theorem splitFence_fence (r : List Char) :
    splitFence (bq :: bq :: bq :: r) = some ([], r) := by
  simp only [splitFence]
  rw [if_pos (by rw [fenceHead_explicit]; decide)]
  rfl

theorem splitFence_cons (a : Char) (rest : List Char) :
    splitFence (a :: rest) =
      if fenceHead (a :: rest) = true then some ([], rest.drop 2)
      else
        match splitFence rest with
        | some (pre, post) => some (a :: pre, post)
        | none => none := rfl

theorem splitFence_extend (p : List Char) :
    splitFence (p ++ [bq, bq, bq]) = some (p, []) →
    ∀ r, splitFence ((p ++ [bq, bq, bq]) ++ r) = some (p, r) := by
  induction p with
  | nil =>
    intro _ r
    simpa using splitFence_fence r
  | cons a p' ih =>
    intro h r
    rw [List.cons_append, splitFence_cons] at h
    cases hfh : fenceHead (a :: (p' ++ [bq, bq, bq])) with
    | true =>
      rw [hfh] at h
      simp at h
    | false =>
      rw [hfh] at h
      simp only [Bool.false_eq_true, if_false] at h
      cases hin : splitFence (p' ++ [bq, bq, bq]) with
      | none =>
        rw [hin] at h
        simp at h
      | some pr =>
        obtain ⟨pre, post⟩ := pr
        rw [hin] at h
        simp only [Option.some.injEq, Prod.mk.injEq, List.cons.injEq, true_and] at h
        obtain ⟨hpre, hpost⟩ := h
        subst hpre
        subst hpost
        have hrec := ih hin r
        have hrec2 : splitFence (pre ++ ([bq, bq, bq] ++ r)) = some (pre, r) := by
          rw [← List.append_assoc]
          exact hrec
        have hfh2 : fenceHead (a :: (pre ++ ([bq, bq, bq] ++ r))) = false := by
          have hx := fenceHead_append (a :: (pre ++ [bq, bq, bq])) r (by simp)
          rw [← hfh, ← hx]
          simp [List.append_assoc]
        show splitFence ((a :: (pre ++ [bq, bq, bq])) ++ r) = some (a :: pre, r)
        rw [List.cons_append, List.append_assoc, splitFence_cons, hfh2]
        simp only [Bool.false_eq_true, if_false]
        rw [hrec2]

theorem splitFence_suffix : ∀ (u v : List Char),
    splitFence ((u ++ v) ++ [bq, bq, bq]) = some (u ++ v, []) →
    splitFence (v ++ [bq, bq, bq]) = some (v, []) := by
  intro u
  induction u with
  | nil => intro v h; simpa using h
  | cons a u' ih =>
    intro v h
    rw [show (a :: u' ++ v) ++ [bq, bq, bq] = a :: (u' ++ (v ++ [bq, bq, bq])) by
      simp [List.append_assoc]] at h
    rw [splitFence_cons] at h
    cases hfh : fenceHead (a :: (u' ++ (v ++ [bq, bq, bq]))) with
    | true =>
      rw [hfh] at h
      simp at h
    | false =>
      rw [hfh] at h
      simp only [Bool.false_eq_true, if_false] at h
      cases hin : splitFence (u' ++ (v ++ [bq, bq, bq])) with
      | none =>
        rw [hin] at h
        simp at h
      | some pr =>
        obtain ⟨pre, post⟩ := pr
        rw [hin] at h
        simp only [Option.some.injEq, Prod.mk.injEq, List.cons.injEq, true_and] at h
        obtain ⟨hpre, hpost⟩ := h
        have hpre2 : pre = u' ++ v := by simpa using hpre
        subst hpre2
        subst hpost
        exact ih v (by rw [List.append_assoc]; exact hin)

theorem matchCI_self : ∀ (kw rest : List Char),
    matchCI (kw.map lowCode) (kw ++ rest) = some rest := by
  intro kw
  induction kw with
  | nil => intro rest; simp [matchCI]
  | cons k kw' ih =>
    intro rest
    simp only [List.map_cons, List.cons_append, matchCI, if_pos rfl]
    exact ih rest

theorem splitLastNL_eq : ∀ l a b : List Char, splitLastNL l = some (a, b) → l = a ++ b := by
  intro l
  induction l with
  | nil => intro a b h; cases h
  | cons c rest ih =>
    intro a b h
    simp only [splitLastNL] at h
    cases hin : splitLastNL rest with
    | some pr =>
      obtain ⟨a', b'⟩ := pr
      rw [hin] at h
      simp only [Option.some.injEq, Prod.mk.injEq] at h
      obtain ⟨ha, hb⟩ := h
      subst ha
      subst hb
      simp [ih a' b' hin]
    | none =>
      rw [hin] at h
      cases hnl : nlCharB c with
      | true =>
        rw [hnl] at h
        simp only [if_true] at h
        simp only [Option.some.injEq, Prod.mk.injEq] at h
        obtain ⟨ha, hb⟩ := h
        subst ha
        subst hb
        rfl
      | false =>
        rw [hnl] at h
        simp at h

theorem splitLastNL_nl (u : List Char) :
    ∃ a, splitLastNL ('\n' :: u) = some (a, afterLastNL u) := by
  simp only [splitLastNL, afterLastNL]
  cases hin : splitLastNL u with
  | some pr =>
    obtain ⟨a', b'⟩ := pr
    exact ⟨'\n' :: a', rfl⟩
  | none =>
    refine ⟨['\n'], ?_⟩
    rw [if_pos (by decide)]

theorem afterLastNL_suffix (u : List Char) : ∃ pre, u = pre ++ afterLastNL u := by
  simp only [afterLastNL]
  cases hin : splitLastNL u with
  | some pr =>
    obtain ⟨a', b'⟩ := pr
    exact ⟨a', splitLastNL_eq u a' b' hin⟩
  | none => exact ⟨[], rfl⟩

theorem takeWhile_mem_p {p : Char → Bool} : ∀ (l : List Char) (c : Char),
    c ∈ l.takeWhile p → p c = true := by
  intro l
  induction l with
  | nil => intro c hc; simp at hc
  | cons a t ih =>
    intro c hc
    rw [List.takeWhile_cons] at hc
    cases ha : p a with
    | true =>
      rw [ha] at hc
      simp only [if_true, List.mem_cons] at hc
      rcases hc with rfl | hc2
      · exact ha
      · exact ih c hc2
    | false =>
      rw [ha] at hc
      simp at hc

theorem jsTrim_space_drop (u v : List Char) (hu : ∀ c ∈ u, jsSpaceB c = true) :
    jsTrim (u ++ v) = jsTrim v := by
  unfold jsTrim
  rw [dropWhile_append_all _ hu]

theorem jsTrim_no_space (l : List Char) (h : ∀ c ∈ l, jsSpaceB c = false) :
    jsTrim l = l := by
  unfold jsTrim
  rw [dropWhile_all_neg _ h, dropWhile_all_neg _ (fun c hc => h c (List.mem_reverse.mp hc)),
    List.reverse_reverse]

theorem jsTrim_bodyTailOf (b : Block) : jsTrim (bodyTailOf b) = jsTrim b.body := by
  unfold bodyTailOf
  have h1 : jsTrim (afterLastNL (b.body.takeWhile jsSpaceB) ++ b.body.dropWhile jsSpaceB) =
      jsTrim (b.body.dropWhile jsSpaceB) := by
    apply jsTrim_space_drop
    intro c hc
    obtain ⟨pre, hpre⟩ := afterLastNL_suffix (b.body.takeWhile jsSpaceB)
    exact takeWhile_mem_p b.body c (by rw [hpre]; exact List.mem_append_right pre hc)
  rw [h1]
  conv_rhs => rw [show b.body = b.body.takeWhile jsSpaceB ++ b.body.dropWhile jsSpaceB from
    (List.takeWhile_append_dropWhile jsSpaceB b.body).symm]
  rw [jsTrim_space_drop _ _ (fun c hc => takeWhile_mem_p b.body c hc)]

theorem takeWhile_all_pos {p : Char → Bool} (l : List Char)
    (h : ∀ c ∈ l, p c = true) : l.takeWhile p = l := by
  have := takeWhile_append_all (p := p) (a := l) [] h
  simpa using this

theorem dropWhile_all_pos {p : Char → Bool} (l : List Char)
    (h : ∀ c ∈ l, p c = true) : l.dropWhile p = [] := by
  have := dropWhile_append_all (p := p) (a := l) [] h
  simpa using this

theorem matchAt_render_aux (kw ws1 : List Char) (n0 : Char)
    (name' ws2 lang body tail : List Char)
    (hkw : kw.map lowCode = fileWord)
    (hws1 : ∀ c ∈ ws1, jsSpaceB c = true)
    (hnamec : ∀ c ∈ n0 :: name', nameCharB c = true)
    (hws2 : ∀ c ∈ ws2, jsSpaceB c = true)
    (hlang : ∀ c ∈ lang, wordCharB c = true)
    (hbody : splitFence (body ++ [bq, bq, bq]) = some (body, [])) :
    matchAt ('[' :: (kw ++ ':' :: (ws1 ++ n0 :: (name' ++ ']' :: (ws2 ++
      bq :: bq :: bq :: (lang ++ '\n' :: (body ++ bq :: bq :: bq :: tail))))))) =
    some (n0 :: name', lang,
      afterLastNL (body.takeWhile jsSpaceB) ++ body.dropWhile jsSpaceB, tail) := by
  have e1 : matchCI fileWord (kw ++ ':' :: (ws1 ++ n0 :: (name' ++ ']' :: (ws2 ++
      bq :: bq :: bq :: (lang ++ '\n' :: (body ++ bq :: bq :: bq :: tail)))))) =
      some (':' :: (ws1 ++ n0 :: (name' ++ ']' :: (ws2 ++
      bq :: bq :: bq :: (lang ++ '\n' :: (body ++ bq :: bq :: bq :: tail)))))) := by
    rw [← hkw]
    exact matchCI_self kw _
  have e2 : List.dropWhile jsSpaceB (ws1 ++ n0 :: (name' ++ ']' :: (ws2 ++
      bq :: bq :: bq :: (lang ++ '\n' :: (body ++ bq :: bq :: bq :: tail))))) =
      n0 :: (name' ++ ']' :: (ws2 ++
      bq :: bq :: bq :: (lang ++ '\n' :: (body ++ bq :: bq :: bq :: tail)))) := by
    rw [dropWhile_append_all _ hws1,
      dropWhile_cons_neg _ (nameChar_not_space n0 (hnamec n0 (by simp)))]
  have e3 : List.takeWhile nameCharB (n0 :: (name' ++ ']' :: (ws2 ++
      bq :: bq :: bq :: (lang ++ '\n' :: (body ++ bq :: bq :: bq :: tail))))) =
      n0 :: name' := by
    rw [List.takeWhile_cons, if_pos (hnamec n0 (by simp)), takeWhile_append_stop _ _ _
      (by decide), takeWhile_all_pos name' (fun c hc => hnamec c (by simp [hc]))]
  have e4 : List.dropWhile nameCharB (n0 :: (name' ++ ']' :: (ws2 ++
      bq :: bq :: bq :: (lang ++ '\n' :: (body ++ bq :: bq :: bq :: tail))))) =
      ']' :: (ws2 ++ bq :: bq :: bq :: (lang ++ '\n' ::
        (body ++ bq :: bq :: bq :: tail))) := by
    rw [List.dropWhile_cons, if_pos (hnamec n0 (by simp)), dropWhile_append_stop _ _ _
      (by decide), dropWhile_all_pos name' (fun c hc => hnamec c (by simp [hc]))]
    rfl
  have e5 : List.dropWhile jsSpaceB (ws2 ++ bq :: bq :: bq :: (lang ++ '\n' ::
      (body ++ bq :: bq :: bq :: tail))) =
      bq :: bq :: bq :: (lang ++ '\n' :: (body ++ bq :: bq :: bq :: tail)) := by
    rw [dropWhile_append_all _ hws2, dropWhile_cons_neg _ (by decide)]
  have e6 : fenceHead (bq :: bq :: bq :: (lang ++ '\n' ::
      (body ++ bq :: bq :: bq :: tail))) = true := by
    rw [fenceHead_explicit]
    decide
  have e7 : List.drop 3 (bq :: bq :: bq :: (lang ++ '\n' ::
      (body ++ bq :: bq :: bq :: tail))) =
      lang ++ '\n' :: (body ++ bq :: bq :: bq :: tail) := rfl
  have e8 : List.takeWhile wordCharB (lang ++ '\n' ::
      (body ++ bq :: bq :: bq :: tail)) = lang := by
    rw [takeWhile_append_stop _ _ _ (by decide), takeWhile_all_pos lang hlang]
  have e9 : List.dropWhile wordCharB (lang ++ '\n' ::
      (body ++ bq :: bq :: bq :: tail)) =
      '\n' :: (body ++ bq :: bq :: bq :: tail) := by
    rw [dropWhile_append_stop _ _ _ (by decide), dropWhile_all_pos lang hlang]
    rfl
  have e10 : List.takeWhile jsSpaceB ('\n' :: (body ++ bq :: bq :: bq :: tail)) =
      '\n' :: List.takeWhile jsSpaceB body := by
    rw [List.takeWhile_cons, if_pos (by decide), takeWhile_append_stop _ _ _ (by decide)]
  have e11 : List.dropWhile jsSpaceB ('\n' :: (body ++ bq :: bq :: bq :: tail)) =
      List.dropWhile jsSpaceB body ++ bq :: bq :: bq :: tail := by
    rw [List.dropWhile_cons, if_pos (by decide), dropWhile_append_stop _ _ _ (by decide)]
  obtain ⟨a, e12⟩ := splitLastNL_nl (List.takeWhile jsSpaceB body)
  have e13 : splitFence (afterLastNL (List.takeWhile jsSpaceB body) ++
      (List.dropWhile jsSpaceB body ++ bq :: bq :: bq :: tail)) =
      some (afterLastNL (List.takeWhile jsSpaceB body) ++
        List.dropWhile jsSpaceB body, tail) := by
    obtain ⟨pre, hpre⟩ := afterLastNL_suffix (List.takeWhile jsSpaceB body)
    have hbodyEq : body = pre ++ (afterLastNL (List.takeWhile jsSpaceB body) ++
        List.dropWhile jsSpaceB body) := by
      conv_lhs => rw [← List.takeWhile_append_dropWhile jsSpaceB body]
      conv_lhs => rw [hpre]
      rw [List.append_assoc]
    have h1 : splitFence ((pre ++ (afterLastNL (List.takeWhile jsSpaceB body) ++
        List.dropWhile jsSpaceB body)) ++ [bq, bq, bq]) =
        some (pre ++ (afterLastNL (List.takeWhile jsSpaceB body) ++
          List.dropWhile jsSpaceB body), []) := by
      rw [← hbodyEq]
      exact hbody
    have h2 := splitFence_suffix pre _ h1
    have h3 := splitFence_extend _ h2 tail
    rw [List.append_assoc, List.append_assoc] at h3
    simpa using h3
  simp only [matchAt, if_pos rfl, e1, e2, e3, e4, e5, e6, e7, e8, e9, e10, e11, e12, e13,
    if_true, List.cons_ne_nil, if_false]

theorem matchAt_render (b : Block) (hwf : b.Wf) (rest : List Char) :
    matchAt (b.render ++ rest) = some (b.name, b.lang, bodyTailOf b, rest) := by
  obtain ⟨kw, ws1, name, ws2, lang, body⟩ := b
  obtain ⟨hkw, hws1, hname, hnamec, hws2, hlang, hbody⟩ := hwf
  obtain ⟨n0, name', rfl⟩ : ∃ n0 name', name = n0 :: name' := by
    cases name with
    | nil => exact absurd rfl hname
    | cons x xs => exact ⟨x, xs, rfl⟩
  have haux := matchAt_render_aux kw ws1 n0 name' ws2 lang body rest
    hkw hws1 hnamec hws2 hlang hbody
  rw [show Block.render ⟨kw, ws1, n0 :: name', ws2, lang, body⟩ ++ rest =
    '[' :: (kw ++ ':' :: (ws1 ++ n0 :: (name' ++ ']' :: (ws2 ++
      bq :: bq :: bq :: (lang ++ '\n' :: (body ++ bq :: bq :: bq :: rest)))))) by
    simp [Block.render, List.cons_append, List.append_assoc]]
  rw [haux]
  rfl

theorem matchAt_not_lbrack (c : Char) (t : List Char) (h : c ≠ '[') :
    matchAt (c :: t) = none := by
  simp only [matchAt]
  rw [if_neg h]

theorem render_cons (b : Block) : b.render = '[' :: b.render.tail := rfl

theorem scanGo_cons_some (fuel : Nat) (c : Char) (tl nm lg bd r : List Char)
    (h : matchAt (c :: tl) = some (nm, lg, bd, r)) :
    scanGo (fuel + 1) (c :: tl) =
      { m0 := (c :: tl).take ((c :: tl).length - r.length)
      , name := nm, lang := lg, body := bd } :: scanGo fuel r := by
  simp [scanGo, h]

theorem scanGo_cons_none (fuel : Nat) (c : Char) (tl : List Char)
    (h : matchAt (c :: tl) = none) :
    scanGo (fuel + 1) (c :: tl) = scanGo fuel tl := by
  simp [scanGo, h]

theorem scanGo_block (b : Block) (hwf : b.Wf) (rest : List Char) (fuel : Nat) :
    scanGo (fuel + 1) (b.render ++ rest) = rawMatchOf b :: scanGo fuel rest := by
  have hm := matchAt_render b hwf rest
  rw [render_cons b, List.cons_append] at hm ⊢
  rw [scanGo_cons_some fuel _ _ _ _ _ _ hm]
  congr 1
  have hlen : ('[' :: (b.render.tail ++ rest)).length - rest.length =
      b.render.tail.length + 1 := by
    simp only [List.length_cons, List.length_append]
    omega
  rw [hlen, List.take_succ_cons, List.take_left]
  rfl

theorem scanGo_prose : ∀ (p : List Char), (∀ c ∈ p, c ≠ '[') →
    ∀ (t : List Char) (fuel : Nat), scanGo (p.length + fuel) (p ++ t) = scanGo fuel t := by
  intro p
  induction p with
  | nil => intro _ t fuel; simp
  | cons c p' ih =>
    intro h t fuel
    have hc : c ≠ '[' := h c (by simp)
    rw [show (c :: p').length + fuel = (p'.length + fuel) + 1 by simp; omega]
    rw [List.cons_append, scanGo_cons_none _ _ _ (matchAt_not_lbrack c _ hc)]
    exact ih (fun x hx => h x (by simp [hx])) t fuel

theorem render_length_pos (b : Block) : 1 ≤ b.render.length := by
  rw [render_cons b]
  simp

theorem scanGo_segs : ∀ (segs : List (Block × List Char)),
    (∀ bp ∈ segs, Block.Wf bp.1 ∧ ∀ c ∈ bp.2, c ≠ '[') →
    ∀ extra : Nat, scanGo ((renderSegs segs).length + extra) (renderSegs segs) =
      segs.map fun bp => rawMatchOf bp.1 := by
  intro segs
  induction segs with
  | nil => intro _ extra; cases extra <;> rfl
  | cons bp rest' ih =>
    intro h extra
    obtain ⟨b, p⟩ := bp
    have hwf := (h (b, p) (by simp)).1
    have hp := (h (b, p) (by simp)).2
    have hrest : ∀ x ∈ rest', Block.Wf x.1 ∧ ∀ c ∈ x.2, c ≠ '[' :=
      fun x hx => h x (by simp [hx])
    simp only [renderSegs, List.append_assoc]
    have hlen1 := render_length_pos b
    rw [show (b.render ++ (p ++ renderSegs rest')).length + extra =
      ((p.length + ((renderSegs rest').length + (b.render.length - 1 + extra))) + 1) by
      simp only [List.length_append]
      omega]
    rw [scanGo_block b hwf _ _]
    rw [scanGo_prose p hp _ _]
    rw [ih hrest _]
    rfl

theorem scanAll_render (p0 : List Char) (segs : List (Block × List Char))
    (hp0 : ∀ c ∈ p0, c ≠ '[')
    (hsegs : ∀ bp ∈ segs, Block.Wf bp.1 ∧ ∀ c ∈ bp.2, c ≠ '[') :
    scanAll (renderInput p0 segs) = segs.map fun bp => rawMatchOf bp.1 := by
  unfold scanAll renderInput
  rw [show (p0 ++ renderSegs segs).length = p0.length + ((renderSegs segs).length + 0) by
    simp [List.length_append]]
  rw [scanGo_prose p0 hp0 _ _]
  exact scanGo_segs segs hsegs 0

theorem startsWithL_self_append : ∀ (T B : List Char), startsWithL T (T ++ B) = true := by
  intro T
  induction T with
  | nil => intro B; rfl
  | cons p ps ih =>
    intro B
    simp only [List.cons_append, startsWithL, beq_self_eq_true, Bool.true_and]
    exact ih B

theorem replaceFirst_at : ∀ (A : List Char), (∀ c ∈ A, c ≠ '[') →
    ∀ (T B R : List Char) (T' : List Char), T = '[' :: T' →
    replaceFirst (A ++ T ++ B) T R = A ++ R ++ B := by
  intro A
  induction A with
  | nil =>
    intro _ T B R T' hT
    subst hT
    simp only [List.nil_append, List.cons_append, replaceFirst]
    rw [if_pos (by simpa [List.cons_append] using startsWithL_self_append ('[' :: T') B)]
    simp only [List.length_cons, List.drop_succ_cons, List.append_eq]
    rw [List.drop_left]
  | cons a A' ih =>
    intro h T B R T' hT
    have ha : a ≠ '[' := h a (by simp)
    simp only [List.cons_append, replaceFirst]
    rw [if_neg (by
      subst hT
      simp only [startsWithL, Bool.and_eq_true, beq_iff_eq]
      intro hx
      exact ha hx.1.symm)]
    simp only [List.append_eq]
    rw [ih (fun c hc => h c (by simp [hc])) T B R T' hT]

theorem noticeFor_no_lbrack (nm : List Char) (h : ∀ c ∈ nm, nameCharB c = true) :
    ∀ c ∈ noticeFor nm, c ≠ '[' := by
  have hlit1 : ∀ x ∈ ("\n\n> 📁 **File Updated: `").data, x ≠ '[' := by decide
  have hlit2 : ∀ x ∈ ("`**\n").data, x ≠ '[' := by decide
  intro c hc
  unfold noticeFor at hc
  rcases List.mem_append.mp hc with hx | hx
  · rcases List.mem_append.mp hx with hy | hy
    · exact hlit1 c hy
    · exact nameChar_ne_lbrack c (h c hy)
  · exact hlit2 c hx

theorem fold_notices : ∀ (segs : List (Block × List Char)) (A : List Char),
    (∀ c ∈ A, c ≠ '[') →
    (∀ bp ∈ segs, Block.Wf bp.1 ∧ ∀ c ∈ bp.2, c ≠ '[') →
    List.foldl (fun acc m => replaceFirst acc m.m0 (noticeFor m.name))
      (A ++ renderSegs segs) (segs.map fun bp => rawMatchOf bp.1) = A ++ cleanedSegs segs := by
  intro segs
  induction segs with
  | nil => intro A _ _; simp [renderSegs, cleanedSegs]
  | cons bp rest' ih =>
    intro A hA h
    obtain ⟨b, p⟩ := bp
    have hwf := (h (b, p) (by simp)).1
    have hp := (h (b, p) (by simp)).2
    have hrest : ∀ x ∈ rest', Block.Wf x.1 ∧ ∀ c ∈ x.2, c ≠ '[' :=
      fun x hx => h x (by simp [hx])
    simp only [List.map_cons, List.foldl_cons, renderSegs]
    have hstep : replaceFirst (A ++ (b.render ++ (p ++ renderSegs rest')))
        (rawMatchOf b).m0 (noticeFor (rawMatchOf b).name) =
        (A ++ noticeFor b.name ++ p) ++ renderSegs rest' := by
      have := replaceFirst_at A hA b.render (p ++ renderSegs rest')
        (noticeFor b.name) b.render.tail (render_cons b)
      rw [show A ++ (b.render ++ (p ++ renderSegs rest')) =
        A ++ b.render ++ (p ++ renderSegs rest') by simp [List.append_assoc]]
      rw [show (rawMatchOf b).m0 = b.render from rfl,
        show (rawMatchOf b).name = b.name from rfl]
      rw [this]
      simp [List.append_assoc]
    rw [show A ++ (b.render ++ p ++ renderSegs rest') =
      A ++ (b.render ++ (p ++ renderSegs rest')) by simp [List.append_assoc]]
    rw [hstep]
    have hname : ∀ c ∈ b.name, nameCharB c = true := hwf.2.2.2.1
    rw [ih (A ++ noticeFor b.name ++ p) (by
      intro c hc
      rcases List.mem_append.mp hc with hx | hx
      · rcases List.mem_append.mp hx with hy | hy
        · exact hA c hy
        · exact noticeFor_no_lbrack b.name hname c hy
      · exact hp c hx) hrest]
    simp [cleanedSegs, List.append_assoc]

theorem mkFileOf_rawMatchOf (idGen : Nat → String) (k : Nat) (b : Block)
    (hwf : Block.Wf b) : mkFileOf idGen k (rawMatchOf b) = expectedFile idGen k b := by
  obtain ⟨hkw, hws1, hname, hnamec, hws2, hlang, hbody⟩ := hwf
  unfold mkFileOf expectedFile
  simp only [ProjectFile.mk.injEq, true_and]
  refine ⟨?_, ?_, ?_⟩
  · rw [show (rawMatchOf b).name = b.name from rfl,
      jsTrim_no_space b.name (fun c hc => nameChar_not_space c (hnamec c hc))]
  · rw [show (rawMatchOf b).lang = b.lang from rfl]
    cases hl : b.lang with
    | nil => decide
    | cons x xs =>
      have hx : jsTrim (x :: xs) = x :: xs :=
        jsTrim_no_space (x :: xs)
          (fun c hc => wordChar_not_space c (hlang c (by rw [hl]; exact hc)))
      simp [hx]
  · rw [show (rawMatchOf b).body = bodyTailOf b from rfl]
    congr 1
    exact jsTrim_bodyTailOf b

theorem buildFiles (idGen : Nat → String) : ∀ (segs : List (Block × List Char)) (k0 : Nat),
    (∀ bp ∈ segs, Block.Wf bp.1) →
    (List.enumFrom k0 (segs.map fun bp => rawMatchOf bp.1)).map
      (fun q => mkFileOf idGen q.1 q.2) =
    (List.enumFrom k0 segs).map (fun q => expectedFile idGen q.1 q.2.1) := by
  intro segs
  induction segs with
  | nil => intro k0 _; rfl
  | cons bp rest' ih =>
    intro k0 h
    obtain ⟨b, p⟩ := bp
    simp only [List.map_cons, List.enumFrom]
    rw [mkFileOf_rawMatchOf idGen k0 b (h (b, p) (by simp))]
    rw [ih (k0 + 1) (fun x hx => h x (by simp [hx]))]

/-- C8: for every input built from N well-formed file markers with distinct
names, each followed by inert prose (no `[` in the prose pieces), the
parser returns exactly N files in first-to-last source order — each with
the marker's path as name, the declared language tag or the default
`text`, and the fenced body trimmed of outer whitespace — and the cleaned
text replaces each matched span in place by the notice referencing that
file's raw path capture, in the same order; and an input in which the
scanner finds zero markers yields the input text verbatim and an empty
extraction list. -/
theorem c8_parser_extraction (idGen : Nat → String) (p0 : List Char)
    (segs : List (Block × List Char))
    (hp0 : ∀ c ∈ p0, c ≠ '[')
    (hsegs : ∀ bp ∈ segs, Block.Wf bp.1 ∧ ∀ c ∈ bp.2, c ≠ '[')
    (hnames : List.Pairwise (fun x y => x.1.name ≠ y.1.name) segs) :
    extractFiles idGen (renderInput p0 segs) =
      { newFiles := segs.enum.map fun q => expectedFile idGen q.1 q.2.1
      , cleanText := p0 ++ cleanedSegs segs } ∧
    (∀ t, scanAll t = [] → extractFiles idGen t = { newFiles := [], cleanText := t }) := by
  constructor
  · unfold extractFiles
    rw [scanAll_render p0 segs hp0 hsegs]
    have h1 : (List.enum (segs.map fun bp => rawMatchOf bp.1)).map
        (fun q => mkFileOf idGen q.1 q.2) =
        segs.enum.map (fun q => expectedFile idGen q.1 q.2.1) :=
      buildFiles idGen segs 0 (fun bp hbp => (hsegs bp hbp).1)
    have h2 := fold_notices segs p0 hp0 hsegs
    unfold renderInput at *
    simp only [h1, h2]
  · intro t h
    unfold extractFiles
    rw [h]
    rfl

/-- C8 (witness): the parser statement at a concrete one-marker input
`Intro [FILE: a.js]\n(fence)js\nlet x = 1;(fence) tail`. -/
theorem c8_parser_witness :
    extractFiles (fun k => toString k)
      (renderInput (("Intro ").data)
        [(⟨("FILE").data, (" ").data, ("a.js").data, [], ("js").data,
          ("let x = 1;").data⟩, (" tail").data)]) =
      { newFiles := ([(⟨("FILE").data, (" ").data, ("a.js").data, [], ("js").data,
            ("let x = 1;").data⟩, (" tail").data)] :
          List (Block × List Char)).enum.map
          (fun q => expectedFile (fun k => toString k) q.1 q.2.1)
      , cleanText := ("Intro ").data ++ cleanedSegs
          [(⟨("FILE").data, (" ").data, ("a.js").data, [], ("js").data,
            ("let x = 1;").data⟩, (" tail").data)] } ∧
    (∀ t, scanAll t = [] →
      extractFiles (fun k => toString k) t = { newFiles := [], cleanText := t }) :=
  c8_parser_extraction (fun k => toString k) (("Intro ").data)
    [(⟨("FILE").data, (" ").data, ("a.js").data, [], ("js").data,
      ("let x = 1;").data⟩, (" tail").data)]
    (by decide)
    (by
      intro bp hbp
      simp only [List.mem_singleton] at hbp
      subst hbp
      refine ⟨?_, by decide⟩
      unfold Block.Wf
      exact ⟨by decide, by decide, by decide, by decide, by decide, by decide, by decide⟩)
    (by decide)
